import Mathlib

/-!
Verification of the xferd file-movement daemon core.

This file gives a shallow embedding, in Lean 4, of the pure and
sequential parts of the xferd source (Go) that the verified claims are
about:

* `internal/watcher/watcher.go`: `ShouldIgnore`, `matchesPathPattern`,
  `isStable` (stability prober);
* `internal/ingress/server.go`: `sanitizeFilename`,
  `sanitizeSubdirectoryPath`, `validateSubdirectoryPath`,
  `streamToFile`, and the tail of `handleUpload`;
* `internal/uploader/uploader.go`: `executeWithRetry`, `Enqueue`, and
  the post-upload lifecycle of `worker`;
* `internal/shadow/shadow.go`: `getShadowPath` / `Store` naming.

Strings are modelled as `List Char` (Go strings viewed as rune
sequences).  The Go standard library functions used by the source
(`path/filepath.Clean`, `Join`, `Abs`, `Base`, `Match`, `ToSlash`,
`strings.Contains`, `strings.Split`, ...) are embedded for the Unix
separator `'/'` (the watcher code under verification is the
`//go:build linux` implementation).  Real time is idealized in the
standard way: a probe or retry loop observes a monotonic clock that
advances by exactly the sleep interval between iterations, and `stat`
calls are instantaneous.  Filesystem and network effects are modelled
by explicit outcome parameters (one value per syscall the code makes),
so that every Go control path corresponds to a value of the embedded
function.
-/

namespace Xferd

/-- Go strings, viewed as their list of runes. -/
abbrev Str := List Char

/-- `strings.Contains`: `pat` occurs as a contiguous substring of the
second argument. -/
def hasInfix (pat : Str) : Str → Bool
  | [] => pat.isEmpty
  | c :: rest => pat.isPrefixOf (c :: rest) || hasInfix pat rest

/-- `strings.Split` on a one-character separator, accumulator form. -/
def splitSepAux (sep : Char) : Str → Str → List Str
  | [], acc => [acc.reverse]
  | c :: rest, acc =>
    if c = sep then acc.reverse :: splitSepAux sep rest []
    else splitSepAux sep rest (c :: acc)

/-- `strings.Split(s, string(sep))`. -/
def splitSep (sep : Char) (s : Str) : List Str := splitSepAux sep s []

/-- `strings.Join(parts, string(sep))`. -/
def joinSep (sep : Char) : List Str → Str
  | [] => []
  | [x] => x
  | x :: xs => x ++ sep :: joinSep sep xs

/-- `filepath.ToSlash` on Unix: `Separator` is already `'/'`, so the
replacement is the identity. -/
def toSlash (s : Str) : Str := s

/-- `filepath.FromSlash` on Unix is the identity. -/
def fromSlash (s : Str) : Str := s

/-- `filepath.IsAbs` on Unix: the path starts with `'/'`. -/
def isAbsGo (s : Str) : Bool := s.head? = some '/'

/-- A path component that `filepath.Clean` copies verbatim: not empty,
not `"."`, not `".."`. -/
def realComp (c : Str) : Bool := !(c = [] || c = ['.'] || c = ['.', '.'])

/-- The element-processing loop of `filepath.Clean`, as a stack machine
over the list of path components.  `rooted` components `".."` are
dropped at the root; un-rooted leading `".."` are kept.  The stack is
held in reverse order. -/
def stackRun (rooted : Bool) (acc : List Str) : List Str → List Str
  | [] => acc
  | c :: rest =>
    if c = [] || c = ['.'] then stackRun rooted acc rest
    else if c = ['.', '.'] then
      match acc with
      | [] => if rooted then stackRun rooted [] rest else stackRun rooted [['.', '.']] rest
      | t :: ts =>
        if t = ['.', '.'] then stackRun rooted (['.', '.'] :: t :: ts) rest
        else stackRun rooted ts rest
    else stackRun rooted (c :: acc) rest

/-- The components `filepath.Clean` keeps, in order. -/
def cleanComps (rooted : Bool) (cs : List Str) : List Str :=
  (stackRun rooted [] cs).reverse

/-- `filepath.Clean` (Unix semantics): shortest lexically-equivalent
path.  Empty path cleans to `"."`; a rooted path keeps its leading
separator and drops `".."` at the root; an un-rooted path keeps leading
`".."` components; the empty result becomes `"."` (or `"/"` when
rooted). -/
def clean (p : Str) : Str :=
  if p = [] then ['.']
  else if p.head? = some '/' then '/' :: joinSep '/' (cleanComps true (splitSep '/' p))
  else
    let comps := cleanComps false (splitSep '/' p)
    if comps = [] then ['.']
    else joinSep '/' comps

/-- `filepath.Join(a, b)`: join the non-empty elements with the
separator and clean the result; all-empty input stays empty. -/
def goJoin (a b : Str) : Str :=
  if a ≠ [] then clean (a ++ '/' :: b)
  else if b ≠ [] then clean b
  else []

/-- `filepath.Abs(path)` with the working directory `cwd` supplied
explicitly (Go reads it with `os.Getwd`): absolute paths are cleaned,
relative ones are joined onto `cwd`. -/
def goAbs (cwd path : Str) : Str :=
  if isAbsGo path then clean path else goJoin cwd path

/-- `filepath.Base` (Unix): strip trailing separators, then keep
everything after the last separator; empty input gives `"."`, an
all-separator input gives `"/"`. -/
def goBase (path : Str) : Str :=
  if path = [] then ['.']
  else
    let p1 := (path.reverse.dropWhile (· = '/')).reverse
    let p2 := (p1.reverse.takeWhile (· ≠ '/')).reverse
    if p2 = [] then ['/'] else p2

/-! ### `internal/ingress/server.go`: sanitization and path containment -/

/-- `sanitizeFilename` (ingress server): validates a filename; no path
separators, no NUL, no `".."` substring, not `"."`/`".."`, and equal to
its own `filepath.Clean` normalization.  Returns the input unchanged on
success. -/
def sanitizeFilename (filename : Str) : Except String Str :=
  if hasInfix [Char.ofNat 0] filename then .error "filename contains null byte"
  else if filename = [] then .error "filename is empty"
  else if hasInfix ['.', '.'] filename then .error "filename contains path traversal attempt"
  else if hasInfix ['/'] filename || hasInfix ['\\'] filename then .error "filename contains path separator"
  else if filename = ['.'] || filename = ['.', '.'] then .error "invalid filename"
  else if clean filename ≠ filename then .error "filename normalization mismatch"
  else .ok filename

/-- `sanitizeSubdirectoryPath` (ingress server): validates a
subdirectory path (separators allowed); normalizes backslashes, rejects
NUL, `".."` substrings, absolute paths, and empty/`.`/`..` components;
re-checks the cleaned form and converts back to OS separators. -/
def sanitizeSubdirectoryPath (subdir : Str) : Except String Str :=
  if hasInfix [Char.ofNat 0] subdir then .error "path contains null byte"
  else if subdir = [] then .error "path is empty"
  else if hasInfix ['.', '.'] (toSlash subdir) then .error "path contains traversal attempt"
  else if (toSlash subdir).head? = some '/' || isAbsGo subdir then
    .error "absolute paths not allowed"
  else if (splitSep '/' (toSlash subdir)).any
      (fun part => part = [] || part = ['.'] || part = ['.', '.']) then
    .error "invalid path component"
  else if hasInfix ['.', '.'] (clean (toSlash subdir))
      || (clean (toSlash subdir)).head? = some '/' then
    .error "path normalization resulted in unsafe path"
  else .ok (fromSlash (clean (toSlash subdir)))

/-- `validateSubdirectoryPath` (ingress server): resolve
`baseDir / relativePath` to an absolute path and require that it stays
inside the absolute base directory (equal to it, or having it followed
by the separator as a prefix).  `cwd` is the process working directory
used by `filepath.Abs`. -/
def validateSubdirectoryPath (cwd baseDir relativePath : Str) : Except String Str :=
  if !(goAbs cwd baseDir ++ ['/']).isPrefixOf (goAbs cwd (goJoin (goAbs cwd baseDir) relativePath))
      && goAbs cwd (goJoin (goAbs cwd baseDir) relativePath) ≠ goAbs cwd baseDir then
    .error "path escapes base directory"
  else .ok (goAbs cwd (goJoin (goAbs cwd baseDir) relativePath))

/-! ### `path/filepath.Match` (Unix), used by the watcher ignore rules -/

/-- Leading-star stripping step of `scanChunk`. -/
def stripStars : Str → Bool × Str
  | [] => (false, [])
  | c :: rest => if c = '*' then (true, (stripStars rest).2) else (false, c :: rest)

/-- Chunk-gathering scan of `scanChunk`: collect pattern characters up
to the next `'*'` outside a character class, skipping escaped
characters. -/
def chunkScan : Bool → Str → Str × Str
  | _, [] => ([], [])
  | inrange, c :: rest =>
    if c = '\\' then
      match rest with
      | [] => (['\\'], [])
      | d :: rest2 =>
        let (ch, rst) := chunkScan inrange rest2
        ('\\' :: d :: ch, rst)
    else if c = '[' then
      let (ch, rst) := chunkScan true rest
      ('[' :: ch, rst)
    else if c = ']' then
      let (ch, rst) := chunkScan false rest
      (']' :: ch, rst)
    else if c = '*' then
      if inrange then
        let (ch, rst) := chunkScan inrange rest
        ('*' :: ch, rst)
      else ([], '*' :: rest)
    else
      let (ch, rst) := chunkScan inrange rest
      (c :: ch, rst)

/-- `scanChunk`: split the pattern into a leading-star flag, the next
literal chunk, and the remaining pattern. -/
def scanChunk (pattern : Str) : Bool × Str × Str :=
  let (star, p) := stripStars pattern
  let (chunk, rest) := chunkScan false p
  (star, chunk, rest)

/-- `getEsc`: read a possibly-escaped character class endpoint; errors
on malformed input (empty, `'-'` or `']'` first, dangling escape, or a
class that would end the chunk). -/
def getEsc : Str → Except Unit (Char × Str)
  | [] => .error ()
  | c :: rest =>
    if c = '-' || c = ']' then .error ()
    else if c = '\\' then
      match rest with
      | [] => .error ()
      | r :: rest2 => if rest2 = [] then .error () else .ok (r, rest2)
    else if rest = [] then .error () else .ok (c, rest)

/-- The character-class loop of `matchChunk`: read `lo[-hi]` ranges
until the closing `']'`, recording whether the rune `r` fell in any
range.  Fueled; the fuel is in reality bounded by the chunk length. -/
def rangeLoop (r : Char) : Nat → Bool → Nat → Str → Except Unit (Bool × Str)
  | 0, _, _, _ => .error ()
  | fuel+1, matched, nrange, chunk =>
    match chunk with
    | ']' :: rest =>
      if nrange > 0 then .ok (matched, rest) else .error ()
    | _ =>
      match getEsc chunk with
      | .error _ => .error ()
      | .ok (lo, chunk1) =>
        match chunk1 with
        | [] => .error ()
        | d :: chunk2 =>
          if d = '-' then
            match getEsc chunk2 with
            | .error _ => .error ()
            | .ok (hi, chunk3) =>
              rangeLoop r fuel (matched || (lo ≤ r && r ≤ hi)) (nrange + 1) chunk3
          else
            rangeLoop r fuel (matched || (lo ≤ r && r ≤ lo)) (nrange + 1) (d :: chunk2)

/-- `matchChunk`: match a literal chunk against the head of the name.
Result `.ok (some t)` is a match with remaining name `t`; `.ok none`
is a clean mismatch; `.error` is a malformed pattern.  As in the
source, after a mismatch the chunk is still parsed to completion so
that syntax errors are reported. -/
def matchChunk : Nat → Bool → Str → Str → Except Unit (Option Str)
  | 0, _, _, _ => .error ()
  | _ + 1, failed, [], s => if failed then .ok none else .ok (some s)
  | fuel+1, failed0, c :: chunk, s =>
    let failed := failed0 || s.isEmpty
    if c = '[' then
      let r := if failed then Char.ofNat 0 else s.headD (Char.ofNat 0)
      let s1 := if failed then s else s.tail
      let (negated, chunk1) :=
        match chunk with
        | '^' :: rest => (true, rest)
        | _ => (false, chunk)
      match rangeLoop r (chunk1.length + 1) false 0 chunk1 with
      | .error _ => .error ()
      | .ok (m, chunk2) => matchChunk fuel (failed || (m == negated)) chunk2 s1
    else if c = '?' then
      let failed2 := failed || (!failed && s.headD (Char.ofNat 0) = '/')
      let s1 := if failed then s else s.tail
      matchChunk fuel failed2 chunk s1
    else if c = '\\' then
      match chunk with
      | [] => .error ()
      | d :: chunk2 =>
        let failed2 := failed || (!failed && !(s.headD (Char.ofNat 0) = d))
        let s1 := if failed then s else s.tail
        matchChunk fuel failed2 chunk2 s1
    else
      let failed2 := failed || (!failed && !(s.headD (Char.ofNat 0) = c))
      let s1 := if failed then s else s.tail
      matchChunk fuel failed2 chunk s1

/-- The star-skipping inner loop of `Match`: try the chunk at every
position of the name up to the next separator, returning the first
remaining-name on success. -/
def starScan (chunk patRest : Str) : Str → Except Unit (Option Str)
  | [] => .ok none
  | c :: tail =>
    if c = '/' then .ok none
    else
      match matchChunk (chunk.length + 1) false chunk tail with
      | .error _ => .error ()
      | .ok none => starScan chunk patRest tail
      | .ok (some t) =>
        if patRest = [] && t ≠ [] then starScan chunk patRest tail
        else .ok (some t)

/-- The trailing syntactic-validity loop of `Match`: after a mismatch,
parse the rest of the pattern so a malformed pattern still reports its
error. -/
def validRest : Nat → Str → Except Unit Bool
  | 0, _ => .error ()
  | _ + 1, [] => .ok false
  | fuel+1, pattern =>
    let (_, chunk, rest) := scanChunk pattern
    match matchChunk (chunk.length + 1) false chunk [] with
    | .error _ => .error ()
    | .ok _ => validRest fuel rest

/-- The main loop of `filepath.Match`.  Fueled; each iteration strictly
shrinks the pattern, so `pattern.length + 1` fuel always suffices. -/
def matchLoop : Nat → Str → Str → Except Unit Bool
  | 0, _, _ => .error ()
  | fuel+1, pattern, name =>
    match pattern with
    | [] => .ok (decide (name = []))
    | _ :: _ =>
      let (star, chunk, rest) := scanChunk pattern
      if star && chunk = [] then .ok (!hasInfix ['/'] name)
      else
        match matchChunk (chunk.length + 1) false chunk name with
        | .error _ => .error ()
        | .ok res =>
          let continuing : Option Str :=
            match res with
            | some t => if t = [] || rest ≠ [] then some t else none
            | none => none
          match continuing with
          | some t => matchLoop fuel rest t
          | none =>
            if star then
              match starScan chunk rest name with
              | .error _ => .error ()
              | .ok (some t) => matchLoop fuel rest t
              | .ok none => validRest (rest.length + 1) rest
            else validRest (rest.length + 1) rest

/-- `filepath.Match(pattern, name)` (Unix separator). -/
def filepathMatch (pattern name : Str) : Except Unit Bool :=
  matchLoop (pattern.length + 1) pattern name

/-! ### `internal/watcher/watcher.go`: ignore rules -/

/-- `strings.TrimPrefix(s, "/")`: drop one leading separator. -/
def trimOneSlash : Str → Str
  | '/' :: rest => rest
  | s => s

/-- The right-to-left segment matching loop of `matchesPathPattern`
(arguments already reversed). -/
def matchFromEnd : List Str → List Str → Bool
  | [], _ => true
  | _ :: _, [] => false
  | p :: ps, q :: qs =>
    (match filepathMatch p q with
     | .ok true => true
     | _ => false) && matchFromEnd ps qs

/-- `matchesPathPattern` (watcher): normalize separators, strip one
leading slash, split into segments, and glob-match the pattern segments
against the rightmost path segments. -/
def matchesPathPattern (pattern path : Str) : Bool :=
  let pattern1 := trimOneSlash (toSlash pattern)
  let path1 := trimOneSlash (toSlash path)
  let patternParts := splitSep '/' pattern1
  let pathParts := splitSep '/' path1
  if patternParts.length > pathParts.length then false
  else matchFromEnd patternParts.reverse pathParts.reverse

/-- `IgnoredSuffixes` (watcher): legacy always-ignored suffixes. -/
def IgnoredSuffixes : List Str :=
  [".partial".toList, ".uploading".toList, ".tmp".toList, ".swp".toList, ".~".toList]

/-- One iteration of the configurable-pattern loop inside
`ShouldIgnore`: a pattern containing a separator is matched
segment-wise against the path, any other pattern is glob-matched
against the basename (match errors count as no match). -/
def patternMatches (pattern path base : Str) : Bool :=
  if hasInfix ['/'] pattern || hasInfix ['\\'] pattern then
    matchesPathPattern pattern path
  else
    match filepathMatch pattern base with
    | .ok m => m
    | .error _ => false

/-- `ShouldIgnore` (watcher): hidden basenames are ignored, then the
configured patterns are consulted, then the legacy suffix list. -/
def ShouldIgnore (path : Str) (ignorePatterns : List Str) : Bool :=
  let base := goBase path
  if base.head? = some '.' then true
  else if ignorePatterns.any (fun pattern => patternMatches pattern path base) then true
  else IgnoredSuffixes.any (fun suffix =>
    suffix.length < base.length && base.drop (base.length - suffix.length) == suffix)

/-! ### `internal/watcher/watcher.go`: the stability prober -/

/-- Stability policy (`config.StabilityConfig`).  Time is measured in
abstract positive units (the code multiplies the configured
milliseconds by a fixed constant, which does not affect any
comparison).  `requiredStableChecks` is a Go `int`. -/
structure StabilityConfig where
  confirmationInterval : Nat
  requiredStableChecks : Int
  maxWait : Nat

/-- The loop of `isStable`.  `f k` is the outcome of the `os.Stat`
call at the k-th iteration (`none` means the file disappeared; `some`
carries (size, mtime)).  The monotonic clock reads `k * interval` at
the top of iteration `k` (the code sleeps `interval` between
iterations).  Along with the `(stable, timedOut)` pair the embedding
reports how many `os.Stat` calls were made, which is observable
behavior of the probe.  Fueled: the timeout arm bounds the real
iteration count, so the chosen fuel is never exhausted when
`interval > 0`. -/
def isStableLoop (f : Nat → Option (Int × Int)) (interval maxWait : Nat)
    (requiredChecks : Int) :
    Nat → Nat → Int → Int × Int → Option ((Bool × Bool) × Nat)
  | 0, _, _, _ => none
  | fuel+1, k, stableCount, last =>
    if k * interval > maxWait then some ((true, true), k)
    else
      match f k with
      | none => some ((false, false), k + 1)
      | some cur =>
        if stableCount > 0 ∧ cur = last then
          if stableCount + 1 ≥ requiredChecks then some ((true, false), k + 1)
          else isStableLoop f interval maxWait requiredChecks fuel (k + 1) (stableCount + 1) cur
        else isStableLoop f interval maxWait requiredChecks fuel (k + 1) 1 cur

/-- `isStable` (watcher): repeatedly stat the file, counting
consecutive identical `(size, mtime)` observations, until the counter
reaches `requiredStableChecks` (stable), the file disappears, or
`maxWait` elapses (assumed stable on timeout). -/
def isStable (f : Nat → Option (Int × Int)) (cfg : StabilityConfig) :
    Option ((Bool × Bool) × Nat) :=
  isStableLoop f cfg.confirmationInterval cfg.maxWait cfg.requiredStableChecks
    (cfg.maxWait / cfg.confirmationInterval + 2) 0 0 (0, 0)

/-! ### `internal/uploader/uploader.go`: retry loop, queue, worker -/

/-- Outcome of one `u.client.Do(req)` call: a transport-level failure
(with the observation whether `req.Context().Err()` is non-nil at that
moment), or an HTTP response with a status code. -/
inductive DoResult
  | netErr (ctxCancelled : Bool)
  | resp (status : Nat)

/-- Terminal outcome of `executeWithRetry`, tagged with the 0-based
attempt index at which the function returned. -/
inductive RetryOutcome
  | success (attempt : Nat)
  | clientError (attempt : Nat) (status : Nat)
  | cancelled (attempt : Nat)
  | exhausted
deriving DecidableEq, Repr

/-- The attempt loop of `executeWithRetry`.  `respond k` is the result
of the HTTP round-trip of attempt `k`; `gateCancelled k` tells whether
`ctx.Done()` fires in the select guarding the backoff sleep before
attempt `k` (`k ≥ 1`).  The returned list records the backoff sleeps
performed, in seconds. -/
def retryLoop (respond : Nat → DoResult) (gateCancelled : Nat → Bool) :
    Nat → Nat → Nat → List Nat → RetryOutcome × List Nat
  | _, 0, _, sleeps => (.exhausted, sleeps)
  | attempt, rem+1, backoff, sleeps =>
    if attempt > 0 ∧ gateCancelled attempt then (.cancelled attempt, sleeps)
    else
      let sleeps1 := if attempt > 0 then sleeps ++ [backoff] else sleeps
      let backoff1 := if attempt > 0 then backoff * 2 else backoff
      match respond attempt with
      | .netErr ctxErr =>
        if ctxErr then (.cancelled attempt, sleeps1)
        else retryLoop respond gateCancelled (attempt + 1) rem backoff1 sleeps1
      | .resp status =>
        if 200 ≤ status ∧ status < 300 then (.success attempt, sleeps1)
        else if 400 ≤ status ∧ status < 500 then (.clientError attempt status, sleeps1)
        else retryLoop respond gateCancelled (attempt + 1) rem backoff1 sleeps1

/-- `executeWithRetry` (uploader): `maxRetries = 3`, so at most 4
attempts; initial backoff 1 second, doubling after each sleep. -/
def executeWithRetry (respond : Nat → DoResult) (gateCancelled : Nat → Bool) :
    RetryOutcome × List Nat :=
  retryLoop respond gateCancelled 0 4 1 []

/-- `NewDispatcher` creates the work queue as `make(chan fileEvent, 100)`. -/
def queueCapacity : Nat := 100

/-- An upload job (`fileEvent` in the uploader). -/
structure UploadJob where
  path : Str
  processedDueToTimeout : Bool
deriving DecidableEq

/-- Result of one `Enqueue` call. -/
inductive EnqueueOutcome
  | sent
  | droppedStopped
  | droppedFull
deriving DecidableEq, Repr

/-- `Enqueue` (uploader): a non-blocking select over sending into the
bounded queue, the dispatcher context, and a default arm.  The channel
send is ready exactly when the buffer has room; `pickDone` resolves the
select nondeterminism when the send and the cancelled-context arm are
both ready. -/
def Enqueue (ctxDone pickDone : Bool) (queue : List UploadJob) (job : UploadJob) :
    EnqueueOutcome × List UploadJob :=
  let sendReady := queue.length < queueCapacity
  if sendReady ∧ ctxDone then
    if pickDone then (.droppedStopped, queue) else (.sent, queue ++ [job])
  else if sendReady then (.sent, queue ++ [job])
  else if ctxDone then (.droppedStopped, queue)
  else (.droppedFull, queue)

/-- `Store` (shadow manager) reduced to its success/failure shape: a
no-op success when shadow is disabled, otherwise `MkdirAll` followed by
a fsynced copy, failing if either fails. -/
def shadowStoreOk (enabled mkdirOk copyOk : Bool) : Bool :=
  if !enabled then true else mkdirOk && copyOk

/-- The filesystem and network observations a worker makes while
processing one job, one field per syscall/request of the source in
program order. -/
structure WorkerStep where
  statInitial : Option Int
  uploadOk : Bool
  statBefore : Option (Int × Int)
  shadowOk : Bool
  statAfter : Option (Int × Int)
  removeOk : Bool

/-- The per-job body of `worker` (uploader), reduced to its
source-deletion decision: `true` exactly when the code reaches
`os.Remove(filePath)` and the removal succeeds.  Every `continue`/log
path of the source maps to `false`. -/
def workerProcessJob (job : UploadJob) (st : WorkerStep) : Bool :=
  match st.statInitial with
  | none => false
  | some _ =>
    if !st.uploadOk then false
    else if job.processedDueToTimeout then false
    else
      match st.statBefore with
      | none => false
      | some (preShadowSize, preShadowModTime) =>
        if !st.shadowOk then false
        else
          match st.statAfter with
          | none => false
          | some (sz, mt) =>
            if sz ≠ preShadowSize ∨ mt ≠ preShadowModTime then false
            else st.removeOk

/-! ### `internal/shadow/shadow.go`: archive naming -/

/-- Fixed-width zero-padded decimal rendering, as produced by the Go
time layout components (`"2006"`, `"01"`, ..., `".000000"`). -/
def padNum : Nat → Nat → Str
  | 0, _ => []
  | w+1, n => padNum w (n / 10) ++ [Nat.digitChar (n % 10)]

/-- A wall-clock instant at microsecond resolution, as observed by
`time.Now()` inside `getShadowPath`. -/
structure Timestamp where
  year : Nat
  month : Nat
  day : Nat
  hour : Nat
  minute : Nat
  second : Nat
  micro : Nat
deriving DecidableEq

/-- Field bounds under which the Go layout produces exactly the
documented widths. -/
def Timestamp.valid (t : Timestamp) : Prop :=
  t.year < 10000 ∧ t.month < 100 ∧ t.day < 100 ∧ t.hour < 100 ∧
    t.minute < 100 ∧ t.second < 100 ∧ t.micro < 1000000

instance (t : Timestamp) : Decidable t.valid := by
  unfold Timestamp.valid; infer_instance

/-- `time.Now().Format("20060102-150405.000000")` as used by
`getShadowPath`. -/
def formatTimestamp (t : Timestamp) : Str :=
  padNum 4 t.year ++ padNum 2 t.month ++ padNum 2 t.day ++ ['-'] ++
    padNum 2 t.hour ++ padNum 2 t.minute ++ padNum 2 t.second ++ ['.'] ++
    padNum 6 t.micro

/-- The archive entry name built by `getShadowPath`:
`fmt.Sprintf("%s-%s", timestamp, base)`. -/
def shadowName (t : Timestamp) (sourcePath : Str) : Str :=
  formatTimestamp t ++ ['-'] ++ goBase sourcePath

/-- `getShadowPath` (shadow manager): the archive entry path under the
shadow root. -/
def getShadowPath (shadowRoot : Str) (t : Timestamp) (sourcePath : Str) : Str :=
  goJoin shadowRoot (shadowName t sourcePath)

/-- Consume exactly `n` decimal digits from the front of the list. -/
def digitsRun : Nat → Str → Option Str
  | 0, rest => some rest
  | n+1, c :: rest => if c.isDigit then digitsRun n rest else none
  | _+1, [] => none

/-- Checker for the documented shape `YYYYMMDD-HHMMSS.uuuuuu`:
eight digits, `'-'`, six digits, `'.'`, six digits, nothing else. -/
def isTimestampShape (l : Str) : Bool :=
  match digitsRun 8 l with
  | none => false
  | some rest =>
    match rest with
    | c :: rest2 =>
      if c = '-' then
        match digitsRun 6 rest2 with
        | none => false
        | some rest3 =>
          match rest3 with
          | d :: rest4 =>
            if d = '.' then
              match digitsRun 6 rest4 with
              | some [] => true
              | _ => false
            else false
          | _ => false
      else false
    | _ => false

/-! ### `internal/ingress/server.go`: upload handler pipeline -/

/-- Outcome of `streamToFile`'s three syscalls in program order:
`os.Create`, `io.Copy`, `f.Sync`. -/
inductive StreamOutcome
  | createFail
  | copyFail
  | syncFail
  | writeOk
deriving DecidableEq, Repr

/-- The observable scratch-area state: whether the `.partial` scratch
file exists in the temp directory, and whether the finalized target
file exists. -/
structure ScratchState where
  tempExists : Bool
  finalExists : Bool
deriving DecidableEq, Repr

/-- `streamToFile` (ingress server): create the scratch file, stream
the body into it, fsync.  A failed create leaves no file; a failed copy
or sync leaves the (partial) scratch file behind, since the function
only closes the handle. -/
def streamToFile (outcome : StreamOutcome) (st : ScratchState) :
    Except String Unit × ScratchState :=
  match outcome with
  | .createFail => (.error "failed to create file", st)
  | .copyFail => (.error "failed to copy data", { st with tempExists := true })
  | .syncFail => (.error "failed to sync file", { st with tempExists := true })
  | .writeOk => (.ok (), { st with tempExists := true })

/-- `strings.SplitN(s, string(sep), 2)`: the part before the first
separator, and (when a separator occurs) the remainder after it. -/
def splitN2 (sep : Char) (s : Str) : Str × Option Str :=
  let pre := s.takeWhile (· ≠ sep)
  match s.dropWhile (· ≠ sep) with
  | [] => (pre, none)
  | _ :: tl => (pre, some tl)

/-- The request-dependent inputs of `handleUpload`: method, URL path
after `/upload/`, whether the named directory is configured (and its
ingest path), and the multipart parsing results. -/
structure UploadRequest where
  isPost : Bool
  uploadPath : Str
  dirKnown : Bool
  ingestPath : Str
  parseFormOk : Bool
  formFileOk : Bool
  filename : Str

/-- The filesystem outcomes `handleUpload` can encounter after
validation: `os.MkdirAll`, the `streamToFile` call, `os.Rename`. -/
structure UploadFsOutcomes where
  mkdirOk : Bool
  stream : StreamOutcome
  renameOk : Bool

/-- The target-relative-path computation inside `handleUpload`: the
sanitized subdirectory from the URL (if any) joined with the sanitized
filename. -/
def targetRelOf (subdirOpt : Option Str) (safeFilename : Str) : Except String Str :=
  match subdirOpt with
  | some subdirPath =>
    if subdirPath ≠ [] then
      match sanitizeSubdirectoryPath subdirPath with
      | .error e => .error e
      | .ok safeSubdir => .ok (goJoin safeSubdir safeFilename)
    else .ok safeFilename
  | none => .ok safeFilename

/-- The write phase of `handleUpload`: containment validation,
directory creation, scratch write, fsync, atomic rename.  On rename
failure the code removes the scratch file; on `streamToFile` failure it
only responds 500. -/
def handleUploadWrite (cwd : Str) (req : UploadRequest) (fsio : UploadFsOutcomes)
    (st : ScratchState) (targetRelPath : Str) : Nat × ScratchState :=
  match validateSubdirectoryPath cwd req.ingestPath targetRelPath with
  | .error _ => (400, st)
  | .ok _finalPath =>
    if !fsio.mkdirOk then (500, st)
    else
      match streamToFile fsio.stream st with
      | (.error _, st1) => (500, st1)
      | (.ok _, st1) =>
        if fsio.renameOk then
          (200, { st1 with tempExists := false, finalExists := true })
        else (500, { st1 with tempExists := false })

/-- `handleUpload` (ingress server), from method check to response:
returns the HTTP status code and the resulting scratch-area state. -/
def handleUpload (cwd : Str) (req : UploadRequest) (fsio : UploadFsOutcomes)
    (st : ScratchState) : Nat × ScratchState :=
  if !req.isPost then (405, st)
  else if req.uploadPath = [] then (400, st)
  else if !req.dirKnown then (404, st)
  else if !req.parseFormOk then (400, st)
  else if !req.formFileOk then (400, st)
  else if req.filename = [] then (400, st)
  else
    match sanitizeFilename req.filename with
    | .error _ => (400, st)
    | .ok safeFilename =>
      match targetRelOf (splitN2 '/' req.uploadPath).2 safeFilename with
      | .error _ => (400, st)
      | .ok targetRelPath => handleUploadWrite cwd req fsio st targetRelPath

/-! ### Specification-side helper definitions -/

/-- A good path component: kept verbatim by Clean and free of
separators. -/
def GoodComp (c : Str) : Prop := realComp c = true ∧ '/' ∉ c

/-- The stability counter of `isStable` as a recurrence over the
observed `(size, mtime)` values: seeded at 1 by the first sample,
incremented on a sample equal to its predecessor, reset to 1
otherwise. -/
def sGo (g : Nat → Int × Int) : Nat → Int
  | 0 => 1
  | k+1 => if g (k + 1) = g k then sGo g k + 1 else 1

/-- An attempt outcome that `executeWithRetry` retries: a transport
failure without context cancellation, or a response that is neither
2xx nor 4xx. -/
def retryableStep : DoResult → Bool
  | .netErr ctxErr => !ctxErr
  | .resp s => !(200 ≤ s && s < 300) && !(400 ≤ s && s < 500)

/-- The doubling backoff schedule starting at `b`, for `n` sleeps. -/
def backoffs : Nat → Nat → List Nat
  | _, 0 => []
  | b, n+1 => b :: backoffs (b * 2) n

/-! ## Supporting lemmas: split / join -/

theorem splitSepAux_ne_nil (sep : Char) (l acc : Str) : splitSepAux sep l acc ≠ [] := by
  induction l generalizing acc with
  | nil => simp [splitSepAux]
  | cons c rest ih =>
    simp only [splitSepAux]
    split <;> simp [ih]

theorem joinSep_splitSepAux (sep : Char) (l acc : Str) :
    joinSep sep (splitSepAux sep l acc) = acc.reverse ++ l := by
  induction l generalizing acc with
  | nil => simp [splitSepAux, joinSep]
  | cons c rest ih =>
    simp only [splitSepAux]
    by_cases h : c = sep
    · rw [if_pos h, h]
      have hne := splitSepAux_ne_nil sep rest ([] : Str)
      cases hsplit : splitSepAux sep rest [] with
      | nil => exact absurd hsplit hne
      | cons x xs =>
        have h2 := ih ([] : Str)
        rw [hsplit] at h2
        simp only [List.reverse_nil, List.nil_append] at h2
        simp [joinSep, h2]
    · rw [if_neg h, ih]
      simp

theorem joinSep_splitSep (sep : Char) (l : Str) :
    joinSep sep (splitSep sep l) = l := by
  simpa using joinSep_splitSepAux sep l []

theorem splitSepAux_append (sep : Char) (a b acc : Str) :
    splitSepAux sep (a ++ sep :: b) acc = splitSepAux sep a acc ++ splitSep sep b := by
  induction a generalizing acc with
  | nil => simp [splitSepAux, splitSep]
  | cons c rest ih =>
    simp only [List.cons_append, splitSepAux]
    split <;> simp [ih]

theorem splitSep_append (sep : Char) (a b : Str) :
    splitSep sep (a ++ sep :: b) = splitSep sep a ++ splitSep sep b :=
  splitSepAux_append sep a b []

theorem mem_splitSepAux_not_sep (sep : Char) (l : Str) :
    ∀ acc, sep ∉ acc → ∀ x ∈ splitSepAux sep l acc, sep ∉ x := by
  induction l with
  | nil =>
    intro acc hacc x hx
    simp only [splitSepAux, List.mem_singleton] at hx
    subst hx
    simpa using hacc
  | cons c rest ih =>
    intro acc hacc x hx
    simp only [splitSepAux] at hx
    by_cases h : c = sep
    · rw [if_pos h] at hx
      rcases List.mem_cons.mp hx with h1 | h1
      · subst h1; simpa using hacc
      · exact ih [] (by simp) x h1
    · rw [if_neg h] at hx
      refine ih (c :: acc) ?_ x hx
      simp only [List.mem_cons, not_or]
      exact ⟨fun he => h he.symm, hacc⟩

theorem mem_splitSep_not_sep (sep : Char) (l : Str) :
    ∀ x ∈ splitSep sep l, sep ∉ x :=
  mem_splitSepAux_not_sep sep l [] (by simp)

theorem splitSepAux_no_sep (sep : Char) (l : Str) (hl : sep ∉ l) (acc : Str) :
    splitSepAux sep l acc = [acc.reverse ++ l] := by
  induction l generalizing acc with
  | nil => simp [splitSepAux]
  | cons c rest ih =>
    simp only [List.mem_cons, not_or] at hl
    simp only [splitSepAux, if_neg (fun h : c = sep => hl.1 h.symm)]
    rw [ih hl.2]
    simp

theorem splitSep_no_sep (sep : Char) (l : Str) (hl : sep ∉ l) :
    splitSep sep l = [l] := by
  simpa using splitSepAux_no_sep sep l hl []

theorem splitSep_joinSep (sep : Char) :
    ∀ cs : List Str, cs ≠ [] → (∀ c ∈ cs, sep ∉ c) →
      splitSep sep (joinSep sep cs) = cs := by
  intro cs
  induction cs with
  | nil => intro h; exact absurd rfl h
  | cons x xs ih =>
    intro _ hmem
    cases xs with
    | nil => exact splitSep_no_sep sep x (hmem x (by simp))
    | cons y ys =>
      show splitSep sep (x ++ sep :: joinSep sep (y :: ys)) = _
      rw [splitSep_append, splitSep_no_sep sep x (hmem x (by simp))]
      rw [ih (by simp) (fun c hc => hmem c (List.mem_cons_of_mem _ hc))]
      simp

theorem splitSep_cons_sep (sep : Char) (l : Str) :
    splitSep sep (sep :: l) = [] :: splitSep sep l := by
  simp [splitSep, splitSepAux]

theorem joinSep_append (sep : Char) :
    ∀ (as bs : List Str), as ≠ [] → bs ≠ [] →
      joinSep sep (as ++ bs) = joinSep sep as ++ sep :: joinSep sep bs := by
  intro as
  induction as with
  | nil => intro bs h; exact absurd rfl h
  | cons x xs ih =>
    intro bs _ hbs
    cases xs with
    | nil =>
      cases bs with
      | nil => exact absurd rfl hbs
      | cons b bs' => simp [joinSep]
    | cons y ys =>
      show joinSep sep (x :: (y :: ys ++ bs)) = _
      have h1 : joinSep sep (x :: (y :: ys ++ bs)) = x ++ sep :: joinSep sep (y :: ys ++ bs) := by
        cases hys : y :: ys ++ bs with
        | nil => simp at hys
        | cons z zs => simp [joinSep, hys]
      rw [h1, ih bs (by simp) hbs]
      simp [joinSep]

/-! ## Supporting lemmas: the Clean stack machine -/

theorem realComp_iff (c : Str) :
    realComp c = true ↔ c ≠ [] ∧ c ≠ ['.'] ∧ c ≠ ['.', '.'] := by
  simp only [realComp, Bool.not_eq_true', Bool.or_eq_false_iff, decide_eq_false_iff_not]
  tauto

theorem stackRun_append (r : Bool) (cs ds : List Str) :
    ∀ acc, stackRun r acc (cs ++ ds) = stackRun r (stackRun r acc cs) ds := by
  induction cs with
  | nil => intro acc; simp [stackRun]
  | cons c rest ih =>
    intro acc
    simp only [List.cons_append, stackRun]
    by_cases h1 : c = [] ∨ c = ['.']
    · have : (c = [] || c = ['.']) = true := by
        rcases h1 with h | h <;> simp [h]
      rw [if_pos this, if_pos this]
      exact ih acc
    · have hb : ¬((c = [] || c = ['.']) = true) := by
        simp only [Bool.or_eq_true, decide_eq_true_eq]
        exact h1
      rw [if_neg hb, if_neg hb]
      by_cases h2 : c = ['.', '.']
      · rw [if_pos h2, if_pos h2]
        cases acc with
        | nil =>
          dsimp only
          by_cases hr : r = true
          · rw [if_pos hr, if_pos hr]
            exact ih []
          · rw [if_neg hr, if_neg hr]
            exact ih [['.', '.']]
        | cons t ts =>
          dsimp only
          by_cases ht : t = ['.', '.']
          · rw [if_pos ht, if_pos ht]
            exact ih _
          · rw [if_neg ht, if_neg ht]
            exact ih ts
      · rw [if_neg h2, if_neg h2]
        exact ih (c :: acc)

theorem stackRun_real (r : Bool) (ds : List Str)
    (hds : ∀ c ∈ ds, realComp c = true) :
    ∀ acc, stackRun r acc ds = ds.reverse ++ acc := by
  induction ds with
  | nil => intro acc; simp [stackRun]
  | cons c rest ih =>
    intro acc
    have hc := (realComp_iff c).mp (hds c (by simp))
    simp only [stackRun]
    have hb : ¬((c = [] || c = ['.']) = true) := by
      simp only [Bool.or_eq_true, decide_eq_true_eq]
      exact not_or.mpr ⟨hc.1, hc.2.1⟩
    rw [if_neg hb, if_neg hc.2.2, ih (fun d hd => hds d (by simp [hd])) (c :: acc)]
    simp

theorem stackRun_good (cs : List Str) (hcs : ∀ c ∈ cs, '/' ∉ c) :
    ∀ acc, (∀ c ∈ acc, GoodComp c) → ∀ c ∈ stackRun true acc cs, GoodComp c := by
  induction cs with
  | nil => intro acc hacc; simpa [stackRun] using hacc
  | cons c rest ih =>
    intro acc hacc x hx
    have hrest : ∀ d ∈ rest, '/' ∉ d := fun d hd => hcs d (by simp [hd])
    simp only [stackRun] at hx
    by_cases h1 : (c = [] || c = ['.']) = true
    · rw [if_pos h1] at hx
      exact ih hrest acc hacc x hx
    · rw [if_neg h1] at hx
      by_cases h2 : c = ['.', '.']
      · rw [if_pos h2] at hx
        cases acc with
        | nil =>
          dsimp only at hx
          rw [if_pos trivial] at hx
          exact ih hrest [] (by simp) x hx
        | cons t ts =>
          have ht : t ≠ ['.', '.'] := by
            have := (hacc t (by simp)).1
            rw [realComp_iff] at this
            exact this.2.2
          dsimp only at hx
          rw [if_neg ht] at hx
          exact ih hrest ts (fun d hd => hacc d (by simp [hd])) x hx
      · rw [if_neg h2] at hx
        refine ih hrest (c :: acc) ?_ x hx
        intro d hd
        rcases List.mem_cons.mp hd with h | h
        · subst h
          refine ⟨?_, hcs d (by simp)⟩
          rw [realComp_iff]
          simp only [Bool.or_eq_true, decide_eq_true_eq, not_or] at h1
          exact ⟨h1.1, h1.2, h2⟩
        · exact hacc d h

/-! ## Supporting lemmas: Clean, Join, Abs -/

theorem clean_noop (l : Str) (h0 : l ≠ []) (h1 : l.head? ≠ some '/')
    (h2 : ∀ c ∈ splitSep '/' l, realComp c = true) : clean l = l := by
  unfold clean
  rw [if_neg h0, if_neg h1]
  have hreal : cleanComps false (splitSep '/' l) = splitSep '/' l := by
    unfold cleanComps
    rw [stackRun_real false _ h2 []]
    simp
  dsimp only
  rw [hreal, if_neg (show splitSep '/' l ≠ [] from splitSepAux_ne_nil '/' l []),
    joinSep_splitSep]

theorem clean_rooted_shape (l : Str) (h : l.head? = some '/') :
    ∃ comps, clean l = '/' :: joinSep '/' comps ∧ ∀ c ∈ comps, GoodComp c := by
  have h0 : l ≠ [] := by cases l <;> simp_all
  refine ⟨cleanComps true (splitSep '/' l), ?_, ?_⟩
  · unfold clean
    rw [if_neg h0, if_pos h]
  · intro c hc
    have hgood := stackRun_good (splitSep '/' l) (mem_splitSep_not_sep '/' l) [] (by simp)
    refine hgood c ?_
    simpa [cleanComps] using hc

theorem clean_rooted_real (relParts : List Str)
    (hrel : ∀ c ∈ relParts, GoodComp c) (hne : relParts ≠ []) :
    clean ('/' :: joinSep '/' relParts) = '/' :: joinSep '/' relParts := by
  have hnosep : ∀ c ∈ relParts, '/' ∉ c := fun c hc => (hrel c hc).2
  have hrealc : ∀ c ∈ relParts, realComp c = true := fun c hc => (hrel c hc).1
  have hsplit : splitSep '/' ('/' :: joinSep '/' relParts) = [] :: relParts := by
    rw [splitSep_cons_sep, splitSep_joinSep '/' relParts hne hnosep]
  unfold clean
  rw [if_neg (by simp : ('/' :: joinSep '/' relParts : Str) ≠ []), if_pos (by simp)]
  congr 1
  rw [hsplit]
  unfold cleanComps
  have : stackRun true [] ([] :: relParts) = stackRun true [] relParts := by
    simp [stackRun]
  rw [this, stackRun_real true relParts hrealc []]
  simp

theorem clean_rooted_append (comps relParts : List Str)
    (hcne : comps ≠ []) (hg : ∀ c ∈ comps, GoodComp c)
    (hrel : ∀ c ∈ relParts, GoodComp c) (hrelne : relParts ≠ []) :
    clean (('/' :: joinSep '/' comps) ++ '/' :: joinSep '/' relParts)
      = ('/' :: joinSep '/' comps) ++ '/' :: joinSep '/' relParts := by
  have harg : (('/' :: joinSep '/' comps) ++ '/' :: joinSep '/' relParts : Str)
      = '/' :: joinSep '/' (comps ++ relParts) := by
    rw [joinSep_append '/' comps relParts hcne hrelne]
    simp
  rw [harg]
  exact clean_rooted_real (comps ++ relParts)
    (fun c hc => (List.mem_append.mp hc).elim (hg c) (hrel c))
    (by simp [hcne])

theorem goAbs_shape (cwd path : Str) (hcwd : cwd.head? = some '/') :
    ∃ comps, goAbs cwd path = '/' :: joinSep '/' comps ∧ ∀ c ∈ comps, GoodComp c := by
  have hcne : cwd ≠ [] := by cases cwd <;> simp_all
  unfold goAbs
  by_cases habs : isAbsGo path = true
  · rw [if_pos habs]
    exact clean_rooted_shape path (by simpa [isAbsGo] using habs)
  · rw [if_neg habs]
    unfold goJoin
    rw [if_pos hcne]
    refine clean_rooted_shape _ ?_
    rw [List.head?_append_of_ne_nil _ hcne]
    exact hcwd

/-! ## Supporting lemmas: sanitizers -/

theorem hasInfix_singleton (c : Char) (l : Str) :
    hasInfix [c] l = true ↔ c ∈ l := by
  induction l with
  | nil => simp [hasInfix]
  | cons d rest ih =>
    simp [hasInfix, List.isPrefixOf, ih]

theorem isPrefixOf_refl (l : Str) : l.isPrefixOf l = true := by
  induction l with
  | nil => rfl
  | cons c rest ih => simp [List.isPrefixOf, ih]

theorem hasInfix_self (l : Str) (h : l ≠ []) : hasInfix l l = true := by
  cases l with
  | nil => exact absurd rfl h
  | cons c rest => simp [hasInfix, isPrefixOf_refl]

theorem sanitizeFilename_ok (name sn : Str) (h : sanitizeFilename name = .ok sn) :
    sn = name ∧ realComp name = true ∧ '/' ∉ name := by
  unfold sanitizeFilename at h
  split_ifs at h with h1 h2 h3 h4 h5 h6 <;>
    first
    | exact Except.noConfusion h
    | skip
  refine ⟨(Except.ok.injEq _ _).mp h |>.symm, ?_, ?_⟩
  · rw [realComp_iff]
    refine ⟨h2, ?_, ?_⟩
    · intro he
      exact h5 (by simp [he])
    · intro he
      exact h3 (by rw [he]; exact hasInfix_self _ (by simp))
  · intro hmem
    exact h4 (by simp [(hasInfix_singleton '/' name).mpr hmem])

theorem toSlash_ne_nil (s : Str) (h : s ≠ []) : toSlash s ≠ [] := by
  cases s <;> simp_all [toSlash]

theorem sanitizeSubdirectoryPath_ok (subdir ss : Str)
    (h : sanitizeSubdirectoryPath subdir = .ok ss) :
    ss ≠ [] ∧ ss.head? ≠ some '/' ∧ (∀ c ∈ splitSep '/' ss, GoodComp c) := by
  unfold sanitizeSubdirectoryPath at h
  split_ifs at h with h1 h2 h3 h4 h5 h6 <;>
    first
    | exact Except.noConfusion h
    | skip
  have hss : ss = clean (toSlash subdir) := ((Except.ok.injEq _ _).mp h).symm
  set normalized := toSlash subdir with hn
  have hne : normalized ≠ [] := toSlash_ne_nil subdir h2
  have hhead : normalized.head? ≠ some '/' := by
    intro hcon
    exact h4 (by simp [hcon])
  have hreal : ∀ c ∈ splitSep '/' normalized, realComp c = true := by
    intro c hc
    rw [realComp_iff]
    simp only [List.any_eq_true, Bool.or_eq_true, decide_eq_true_eq, not_exists, not_and,
      not_or] at h5
    have := h5 c hc
    tauto
  have hcl : clean normalized = normalized := clean_noop normalized hne hhead hreal
  rw [hcl] at hss
  subst hss
  refine ⟨hne, hhead, ?_⟩
  intro c hc
  exact ⟨hreal c hc, mem_splitSep_not_sep '/' normalized c hc⟩

/-! ## Supporting lemmas: path containment -/

theorem isPrefixOf_append_cons (a : Str) (x : Char) (b : Str) :
    (a ++ [x]).isPrefixOf (a ++ x :: b) = true := by
  induction a with
  | nil => simp [List.isPrefixOf]
  | cons c rest ih => simpa [List.isPrefixOf] using ih

theorem goJoin_sanitized (ss sn : Str)
    (hss : ss ≠ []) (hhead : ss.head? ≠ some '/')
    (hparts : ∀ c ∈ splitSep '/' ss, GoodComp c)
    (hsn : realComp sn = true) (hsn2 : '/' ∉ sn) :
    goJoin ss sn = ss ++ '/' :: sn ∧
      splitSep '/' (ss ++ '/' :: sn) = splitSep '/' ss ++ [sn] ∧
      (ss ++ '/' :: sn).head? = ss.head? := by
  have hsplit : splitSep '/' (ss ++ '/' :: sn) = splitSep '/' ss ++ [sn] := by
    rw [splitSep_append, splitSep_no_sep '/' sn hsn2]
  have hheadapp : (ss ++ '/' :: sn).head? = ss.head? :=
    List.head?_append_of_ne_nil _ hss
  refine ⟨?_, hsplit, hheadapp⟩
  unfold goJoin
  rw [if_pos hss]
  refine clean_noop _ (by simp) (by rw [hheadapp]; exact hhead) ?_
  intro c hc
  rw [hsplit] at hc
  rcases List.mem_append.mp hc with h | h
  · exact (hparts c h).1
  · rw [List.mem_singleton.mp h]
    exact hsn

theorem validate_ok_means_inside (cwd base rel : Str) :
    ∀ p, validateSubdirectoryPath cwd base rel = .ok p →
      (goAbs cwd base ++ ['/']).isPrefixOf p = true ∨ p = goAbs cwd base := by
  intro p hp
  unfold validateSubdirectoryPath at hp
  by_cases hcond :
      (!(goAbs cwd base ++ ['/']).isPrefixOf (goAbs cwd (goJoin (goAbs cwd base) rel))
        && decide (goAbs cwd (goJoin (goAbs cwd base) rel) ≠ goAbs cwd base)) = true
  · rw [if_pos hcond] at hp
    exact Except.noConfusion hp
  · rw [if_neg hcond] at hp
    have hval : goAbs cwd (goJoin (goAbs cwd base) rel) = p := (Except.ok.injEq _ _).mp hp
    subst hval
    simp only [Bool.and_eq_true, Bool.not_eq_true', decide_eq_true_eq] at hcond
    rcases not_and_or.mp hcond with h | h
    · left
      cases hb : (goAbs cwd base ++ ['/']).isPrefixOf (goAbs cwd (goJoin (goAbs cwd base) rel)) with
      | false => exact absurd hb h
      | true => rfl
    · right
      exact not_not.mp h

theorem goAbs_of_isAbs (cwd p : Str) (h : isAbsGo p = true) : goAbs cwd p = clean p := by
  unfold goAbs
  rw [if_pos h]

theorem validate_sanitized_descends (cwd base rel : Str)
    (hcwd : cwd.head? = some '/')
    (hrelne : rel ≠ []) (hrelhead : rel.head? ≠ some '/')
    (hrelparts : ∀ c ∈ splitSep '/' rel, GoodComp c) :
    ∀ p, validateSubdirectoryPath cwd base rel = .ok p →
      (goAbs cwd base ++ ['/']).isPrefixOf p = true := by
  obtain ⟨comps, hA, hgood⟩ := goAbs_shape cwd base hcwd
  have hrelj : joinSep '/' (splitSep '/' rel) = rel := joinSep_splitSep '/' rel
  have hrelpne : splitSep '/' rel ≠ [] := splitSepAux_ne_nil '/' rel []
  by_cases hc : comps = []
  · -- the ingest root resolves to "/": the containment check rejects
    intro p hp
    exfalso
    have hA2 : goAbs cwd base = ['/'] := by rw [hA, hc]; rfl
    obtain ⟨c0, rel', hrel0⟩ : ∃ c0 rel', rel = c0 :: rel' := by
      cases rel with
      | nil => exact absurd rfl hrelne
      | cons c0 rel' => exact ⟨c0, rel', rfl⟩
    have hc0 : c0 ≠ '/' := by
      intro he
      exact hrelhead (by simp [hrel0, he])
    have hfinal : goJoin (goAbs cwd base) rel = '/' :: rel := by
      rw [hA2]
      unfold goJoin
      rw [if_pos (by simp)]
      have harg : (['/'] ++ '/' :: rel : Str) = '/' :: joinSep '/' ([] :: splitSep '/' rel) := by
        have : joinSep '/' ([] :: splitSep '/' rel) = '/' :: rel := by
          cases hsp : splitSep '/' rel with
          | nil => exact absurd hsp hrelpne
          | cons x xs =>
            show ([] : Str) ++ '/' :: joinSep '/' (x :: xs) = '/' :: rel
            rw [← hsp, hrelj]
            simp
        rw [this]
        simp
      rw [harg]
      have hargsplit : splitSep '/' (('/' : Char) :: joinSep '/' ([] :: splitSep '/' rel))
          = [] :: [] :: splitSep '/' rel := by
        rw [splitSep_cons_sep]
        congr 1
        have : joinSep '/' ([] :: splitSep '/' rel) = ([] : Str) ++ '/' :: joinSep '/' (splitSep '/' rel) := by
          cases hsp : splitSep '/' rel with
          | nil => exact absurd hsp hrelpne
          | cons x xs => rfl
        rw [this, hrelj]
        show splitSep '/' ('/' :: rel) = _
        rw [splitSep_cons_sep]
      unfold clean
      rw [if_neg (by simp), if_pos (by simp), hargsplit]
      unfold cleanComps
      have hskip : stackRun true [] ([] :: [] :: splitSep '/' rel) = stackRun true [] (splitSep '/' rel) := by
        simp [stackRun]
      rw [hskip, stackRun_real true _ (fun c hcm => (hrelparts c hcm).1) []]
      simp [hrelj]
    have habs2 : goAbs cwd (goJoin (goAbs cwd base) rel) = '/' :: rel := by
      rw [hfinal]
      unfold goAbs
      rw [if_pos (by simp [isAbsGo])]
      have := clean_rooted_real (splitSep '/' rel) hrelparts hrelpne
      rw [hrelj] at this
      exact this
    unfold validateSubdirectoryPath at hp
    rw [habs2, hA2] at hp
    have hnopre : ((['/'] : Str) ++ ['/']).isPrefixOf ('/' :: rel) = false := by
      rw [hrel0]
      simp [List.isPrefixOf, Ne.symm hc0]
    have hcondtrue :
        (!((['/'] : Str) ++ ['/']).isPrefixOf ('/' :: rel)
          && decide (('/' :: rel : Str) ≠ ['/'])) = true := by
      rw [hnopre]
      simp [hrel0]
    rw [if_pos hcondtrue] at hp
    exact Except.noConfusion hp
  · -- the ingest root is a proper absolute directory
    intro p hp
    have hAne : goAbs cwd base ≠ [] := by
      rw [hA]
      simp
    have hfinal : goJoin (goAbs cwd base) rel = goAbs cwd base ++ '/' :: rel := by
      unfold goJoin
      rw [if_pos hAne, hA, ← hrelj]
      exact clean_rooted_append comps (splitSep '/' rel) hc hgood hrelparts hrelpne
    have habs2 : goAbs cwd (goJoin (goAbs cwd base) rel) = goAbs cwd base ++ '/' :: rel := by
      rw [hfinal]
      have hAabs : isAbsGo (goAbs cwd base ++ '/' :: rel) = true := by
        simp [isAbsGo, hA]
      rw [goAbs_of_isAbs cwd _ hAabs, hA, ← hrelj]
      exact clean_rooted_append comps (splitSep '/' rel) hc hgood hrelparts hrelpne
    unfold validateSubdirectoryPath at hp
    rw [habs2, isPrefixOf_append_cons] at hp
    simp only [Bool.not_true, Bool.false_and] at hp
    rw [if_neg Bool.false_ne_true] at hp
    have hpe : goAbs cwd base ++ '/' :: rel = p := (Except.ok.injEq _ _).mp hp
    rw [← hpe]
    exact isPrefixOf_append_cons _ '/' rel

/-! ## Supporting lemmas: the stability prober -/

theorem sGo_pos (g : Nat → Int × Int) : ∀ k, 0 < sGo g k := by
  intro k
  induction k with
  | zero => simp [sGo]
  | succ k ih =>
    rw [sGo]
    split
    · omega
    · omega

theorem sGo_succ_match (g : Nat → Int × Int) (k : Nat) (h1 : 1 ≤ k)
    (hm : g k = g (k - 1)) : sGo g k = sGo g (k - 1) + 1 := by
  obtain ⟨k', rfl⟩ : ∃ k', k = k' + 1 := ⟨k - 1, by omega⟩
  simp only [Nat.add_sub_cancel] at hm ⊢
  rw [sGo, if_pos hm]

theorem sGo_succ_nomatch (g : Nat → Int × Int) (k : Nat) (h1 : 1 ≤ k)
    (hm : ¬ g k = g (k - 1)) : sGo g k = 1 := by
  obtain ⟨k', rfl⟩ : ∃ k', k = k' + 1 := ⟨k - 1, by omega⟩
  simp only [Nat.add_sub_cancel] at hm ⊢
  rw [sGo, if_neg hm]

theorem sGo_const (g : Nat → Int × Int) :
    ∀ k, (∀ i, i ≤ k → g i = g 0) → sGo g k = (k : Int) + 1 := by
  intro k
  induction k with
  | zero => intro _; simp [sGo]
  | succ k ih =>
    intro hconst
    have hm : g (k + 1) = g k := by
      rw [hconst (k + 1) (le_refl _), hconst k (by omega)]
    rw [sGo, if_pos hm, ih (fun i hi => hconst i (by omega))]
    push_cast
    ring

theorem isStableLoop_hit (f : Nat → Option (Int × Int)) (int mw : Nat) (req : Int)
    (g : Nat → Int × Int) (K kstar : Nat)
    (hint : 0 < int) (hK : K = mw / int)
    (hf : ∀ i, i ≤ K → f i = some (g i))
    (h2 : kstar ≤ K)
    (hmatch : g kstar = g (kstar - 1))
    (hthr : req ≤ sGo g kstar)
    (hmin : ∀ i, 1 ≤ i → i < kstar → g i = g (i - 1) → sGo g i < req) :
    ∀ fuel k, 1 ≤ k → k ≤ kstar → kstar + 1 ≤ fuel + k →
      isStableLoop f int mw req fuel k (sGo g (k - 1)) (g (k - 1))
        = some ((true, false), kstar + 1) := by
  intro fuel
  induction fuel with
  | zero =>
    intro k _ h2k h3k
    omega
  | succ fuel ih =>
    intro k h1k h2k h3k
    have hkK : k ≤ K := le_trans h2k h2
    have hto : ¬ (k * int > mw) := by
      have ha : k * int ≤ K * int := Nat.mul_le_mul_right int hkK
      have hb : K * int ≤ mw := by
        rw [hK]
        exact Nat.div_mul_le_self mw int
      omega
    rw [isStableLoop, if_neg hto, hf k hkK]
    dsimp only
    have hpos : (0 : Int) < sGo g (k - 1) := sGo_pos g (k - 1)
    by_cases hm : g k = g (k - 1)
    · have hc : sGo g (k - 1) > 0 ∧ g k = g (k - 1) := ⟨hpos, hm⟩
      rw [if_pos hc]
      have hsk : sGo g k = sGo g (k - 1) + 1 := sGo_succ_match g k h1k hm
      by_cases hkstar : k = kstar
      · subst hkstar
        have hge : sGo g (k - 1) + 1 ≥ req := by omega
        rw [if_pos hge]
      · have hklt : k < kstar := lt_of_le_of_ne h2k hkstar
        have hlt : sGo g k < req := hmin k h1k hklt hm
        have hnge : ¬ (sGo g (k - 1) + 1 ≥ req) := by omega
        rw [if_neg hnge]
        have hrw : sGo g (k - 1) + 1 = sGo g ((k + 1) - 1) := by
          rw [Nat.add_sub_cancel, hsk]
        have hrw2 : g k = g ((k + 1) - 1) := by
          rw [Nat.add_sub_cancel]
        rw [hrw, hrw2]
        exact ih (k + 1) (by omega) (by omega) (by omega)
    · have hnc : ¬ (sGo g (k - 1) > 0 ∧ g k = g (k - 1)) := fun hc => hm hc.2
      rw [if_neg hnc]
      have hklt : k < kstar := by
        rcases lt_or_eq_of_le h2k with h | h
        · exact h
        · exact absurd (h ▸ hmatch) hm
      have hs1 : sGo g k = 1 := sGo_succ_nomatch g k h1k hm
      have hrw : (1 : Int) = sGo g ((k + 1) - 1) := by
        rw [Nat.add_sub_cancel, hs1]
      have hrw2 : g k = g ((k + 1) - 1) := by
        rw [Nat.add_sub_cancel]
      rw [hrw, hrw2]
      exact ih (k + 1) (by omega) (by omega) (by omega)

theorem isStableLoop_timeout (f : Nat → Option (Int × Int)) (int mw : Nat) (req : Int)
    (g : Nat → Int × Int) (K : Nat)
    (hint : 0 < int) (hK : K = mw / int)
    (hf : ∀ i, i ≤ K → f i = some (g i))
    (hno : ∀ i, 1 ≤ i → i ≤ K → g i = g (i - 1) → sGo g i < req) :
    ∀ fuel k, 1 ≤ k → k ≤ K + 1 → K + 2 ≤ fuel + k →
      isStableLoop f int mw req fuel k (sGo g (k - 1)) (g (k - 1))
        = some ((true, true), K + 1) := by
  intro fuel
  induction fuel with
  | zero =>
    intro k _ h2k h3k
    omega
  | succ fuel ih =>
    intro k h1k h2k h3k
    by_cases hkK : k ≤ K
    · have hto : ¬ (k * int > mw) := by
        have ha : k * int ≤ K * int := Nat.mul_le_mul_right int hkK
        have hb : K * int ≤ mw := by
          rw [hK]
          exact Nat.div_mul_le_self mw int
        omega
      rw [isStableLoop, if_neg hto, hf k hkK]
      dsimp only
      have hpos : (0 : Int) < sGo g (k - 1) := sGo_pos g (k - 1)
      by_cases hm : g k = g (k - 1)
      · have hc : sGo g (k - 1) > 0 ∧ g k = g (k - 1) := ⟨hpos, hm⟩
        rw [if_pos hc]
        have hsk : sGo g k = sGo g (k - 1) + 1 := sGo_succ_match g k h1k hm
        have hlt : sGo g k < req := hno k h1k hkK hm
        have hnge : ¬ (sGo g (k - 1) + 1 ≥ req) := by omega
        rw [if_neg hnge]
        have hrw : sGo g (k - 1) + 1 = sGo g ((k + 1) - 1) := by
          rw [Nat.add_sub_cancel, hsk]
        have hrw2 : g k = g ((k + 1) - 1) := by
          rw [Nat.add_sub_cancel]
        rw [hrw, hrw2]
        exact ih (k + 1) (by omega) (by omega) (by omega)
      · have hnc : ¬ (sGo g (k - 1) > 0 ∧ g k = g (k - 1)) := fun hc => hm hc.2
        rw [if_neg hnc]
        have hs1 : sGo g k = 1 := sGo_succ_nomatch g k h1k hm
        have hrw : (1 : Int) = sGo g ((k + 1) - 1) := by
          rw [Nat.add_sub_cancel, hs1]
        have hrw2 : g k = g ((k + 1) - 1) := by
          rw [Nat.add_sub_cancel]
        rw [hrw, hrw2]
        exact ih (k + 1) (by omega) (by omega) (by omega)
    · have hkeq : k = K + 1 := by omega
      subst hkeq
      have hmod : mw % int < int := Nat.mod_lt _ hint
      have hdm : int * (mw / int) + mw % int = mw := Nat.div_add_mod mw int
      have hmul : (K + 1) * int = int * (mw / int) + int := by
        rw [hK, Nat.succ_mul, Nat.mul_comm]
      have hto : (K + 1) * int > mw := by omega
      rw [isStableLoop, if_pos hto]

theorem isStable_first_step (f : Nat → Option (Int × Int)) (cfg : StabilityConfig)
    (g : Nat → Int × Int) (hf0 : f 0 = some (g 0)) (fuel : Nat)
    (hfuel : cfg.maxWait / cfg.confirmationInterval + 2 = fuel + 1) :
    isStable f cfg
      = isStableLoop f cfg.confirmationInterval cfg.maxWait cfg.requiredStableChecks
          fuel 1 (sGo g 0) (g 0) := by
  unfold isStable
  have h0 : ¬ (0 * cfg.confirmationInterval > cfg.maxWait) := by simp
  rw [hfuel, isStableLoop, if_neg h0, hf0]
  dsimp only
  have hnc : ¬ ((0 : Int) > 0 ∧ g 0 = (0, 0)) := fun hc => absurd hc.1 (lt_irrefl 0)
  rw [if_neg hnc]
  rfl

/-! ## Supporting lemmas: the retry loop -/

theorem retryLoop_exhausted (respond : Nat → DoResult) (gate : Nat → Bool)
    (a b : Nat) (s : List Nat) :
    retryLoop respond gate a 0 b s = (.exhausted, s) := rfl

theorem retryLoop_gateStop (respond : Nat → DoResult) (gate : Nat → Bool)
    (a rem b : Nat) (s : List Nat) (ha : 0 < a) (hg : gate a = true) :
    retryLoop respond gate a (rem + 1) b s = (.cancelled a, s) := by
  have hc : a > 0 ∧ gate a = true := ⟨ha, hg⟩
  rw [retryLoop, if_pos hc]

theorem retryLoop_body (respond : Nat → DoResult) (gate : Nat → Bool)
    (a rem b : Nat) (s : List Nat) (hg : ¬ (a > 0 ∧ gate a = true)) :
    retryLoop respond gate a (rem + 1) b s =
      match respond a with
      | .netErr ctxErr =>
        if ctxErr then (.cancelled a, if a > 0 then s ++ [b] else s)
        else retryLoop respond gate (a + 1) rem (if a > 0 then b * 2 else b)
          (if a > 0 then s ++ [b] else s)
      | .resp status =>
        if 200 ≤ status ∧ status < 300 then
          (.success a, if a > 0 then s ++ [b] else s)
        else if 400 ≤ status ∧ status < 500 then
          (.clientError a status, if a > 0 then s ++ [b] else s)
        else retryLoop respond gate (a + 1) rem (if a > 0 then b * 2 else b)
          (if a > 0 then s ++ [b] else s) := by
  rw [retryLoop, if_neg hg]

theorem retryLoop_retry0 (respond : Nat → DoResult) (gate : Nat → Bool)
    (rem b : Nat) (s : List Nat) (hr : retryableStep (respond 0) = true) :
    retryLoop respond gate 0 (rem + 1) b s = retryLoop respond gate 1 rem b s := by
  rw [retryLoop_body respond gate 0 rem b s (fun hc => absurd hc.1 (lt_irrefl 0))]
  cases hresp : respond 0 with
  | netErr ctxErr =>
    dsimp only
    rw [hresp] at hr
    simp only [retryableStep, Bool.not_eq_true'] at hr
    subst hr
    simp
  | resp status =>
    dsimp only
    rw [hresp] at hr
    simp only [retryableStep, Bool.and_eq_true, Bool.not_eq_true', Bool.and_eq_false_iff,
      decide_eq_false_iff_not] at hr
    have h2 : ¬ (200 ≤ status ∧ status < 300) := by
      rcases hr.1 with h | h <;> exact fun hc => h (by omega)
    have h4 : ¬ (400 ≤ status ∧ status < 500) := by
      rcases hr.2 with h | h <;> exact fun hc => h (by omega)
    rw [if_neg h2, if_neg h4]
    simp

theorem retryLoop_retryS (respond : Nat → DoResult) (gate : Nat → Bool)
    (a rem b : Nat) (s : List Nat) (ha : 0 < a) (hg : gate a = false)
    (hr : retryableStep (respond a) = true) :
    retryLoop respond gate a (rem + 1) b s
      = retryLoop respond gate (a + 1) rem (b * 2) (s ++ [b]) := by
  rw [retryLoop_body respond gate a rem b s (fun hc => by rw [hg] at hc; exact Bool.noConfusion hc.2)]
  cases hresp : respond a with
  | netErr ctxErr =>
    dsimp only
    rw [hresp] at hr
    simp only [retryableStep, Bool.not_eq_true'] at hr
    subst hr
    simp [ha]
  | resp status =>
    dsimp only
    rw [hresp] at hr
    simp only [retryableStep, Bool.and_eq_true, Bool.not_eq_true', Bool.and_eq_false_iff,
      decide_eq_false_iff_not] at hr
    have h2 : ¬ (200 ≤ status ∧ status < 300) := by
      rcases hr.1 with h | h <;> exact fun hc => h (by omega)
    have h4 : ¬ (400 ≤ status ∧ status < 500) := by
      rcases hr.2 with h | h <;> exact fun hc => h (by omega)
    rw [if_neg h2, if_neg h4]
    simp [ha]

theorem retryLoop_terminal (respond : Nat → DoResult) (gate : Nat → Bool)
    (a rem b : Nat) (s : List Nat) (hg : ¬ (a > 0 ∧ gate a = true)) :
    (∀ status, respond a = .resp status → 200 ≤ status → status < 300 →
        retryLoop respond gate a (rem + 1) b s
          = (.success a, if a > 0 then s ++ [b] else s))
    ∧ (∀ status, respond a = .resp status → ¬ (200 ≤ status ∧ status < 300) →
        400 ≤ status → status < 500 →
        retryLoop respond gate a (rem + 1) b s
          = (.clientError a status, if a > 0 then s ++ [b] else s))
    ∧ (respond a = .netErr true →
        retryLoop respond gate a (rem + 1) b s
          = (.cancelled a, if a > 0 then s ++ [b] else s)) := by
  refine ⟨?_, ?_, ?_⟩
  · intro status hresp h2 h3
    rw [retryLoop_body respond gate a rem b s hg, hresp]
    dsimp only
    rw [if_pos ⟨h2, h3⟩]
  · intro status hresp h2 h4 h5
    rw [retryLoop_body respond gate a rem b s hg, hresp]
    dsimp only
    rw [if_neg h2, if_pos ⟨h4, h5⟩]
  · intro hresp
    rw [retryLoop_body respond gate a rem b s hg, hresp]
    dsimp only
    rw [if_pos rfl]

theorem retryLoop_sleeps (respond : Nat → DoResult) (gate : Nat → Bool) :
    ∀ rem a b s, 0 < a →
      ∃ t, (retryLoop respond gate a rem b s).2 = s ++ t ∧ t <+: backoffs b rem := by
  intro rem
  induction rem with
  | zero =>
    intro a b s _
    exact ⟨[], by simp [retryLoop_exhausted], by simp [backoffs]⟩
  | succ rem ih =>
    intro a b s ha
    by_cases hg : gate a = true
    · refine ⟨[], ?_, by simp⟩
      rw [retryLoop_gateStop respond gate a rem b s ha hg]
      simp
    · have hng : ¬ (a > 0 ∧ gate a = true) := fun hc => hg hc.2
      rw [retryLoop_body respond gate a rem b s hng]
      cases hresp : respond a with
      | netErr ctxErr =>
        dsimp only
        cases ctxErr with
        | true =>
          refine ⟨[b], ?_, ?_⟩
          · simp [ha]
          · simp [backoffs]
        | false =>
          simp only [if_neg Bool.false_ne_true, if_pos ha]
          obtain ⟨t, ht, hpre⟩ := ih (a + 1) (b * 2) (s ++ [b]) (by omega)
          refine ⟨b :: t, ?_, ?_⟩
          · rw [ht]
            simp
          · simpa [backoffs] using hpre
      | resp status =>
        dsimp only
        by_cases h2 : 200 ≤ status ∧ status < 300
        · rw [if_pos h2]
          refine ⟨[b], by simp [ha], by simp [backoffs]⟩
        · rw [if_neg h2]
          by_cases h4 : 400 ≤ status ∧ status < 500
          · rw [if_pos h4]
            refine ⟨[b], by simp [ha], by simp [backoffs]⟩
          · rw [if_neg h4]
            simp only [if_pos ha]
            obtain ⟨t, ht, hpre⟩ := ih (a + 1) (b * 2) (s ++ [b]) (by omega)
            refine ⟨b :: t, ?_, ?_⟩
            · rw [ht]
              simp
            · simpa [backoffs] using hpre

/-! ## Supporting lemmas: shadow archive names -/

theorem padNum_length (w n : Nat) : (padNum w n).length = w := by
  induction w generalizing n with
  | zero => rfl
  | succ w ih => simp [padNum, ih]

theorem digitChar_isDigit : ∀ m, m < 10 → (Nat.digitChar m).isDigit = true := by decide

theorem digitChar_inj : ∀ a, a < 10 → ∀ b, b < 10 →
    Nat.digitChar a = Nat.digitChar b → a = b := by decide

theorem padNum_digits (w n : Nat) : ∀ c ∈ padNum w n, c.isDigit = true := by
  induction w generalizing n with
  | zero => simp [padNum]
  | succ w ih =>
    intro c hc
    rw [padNum] at hc
    rcases List.mem_append.mp hc with h | h
    · exact ih (n / 10) c h
    · rw [List.mem_singleton.mp h]
      exact digitChar_isDigit (n % 10) (Nat.mod_lt n (by omega))

theorem padNum_inj (w : Nat) : ∀ n₁ n₂, n₁ < 10 ^ w → n₂ < 10 ^ w →
    padNum w n₁ = padNum w n₂ → n₁ = n₂ := by
  induction w with
  | zero =>
    intro n₁ n₂ h1 h2 _
    simp only [pow_zero, Nat.lt_one_iff] at h1 h2
    omega
  | succ w ih =>
    intro n₁ n₂ h1 h2 heq
    rw [padNum, padNum] at heq
    have hlen : (padNum w (n₁ / 10)).length = (padNum w (n₂ / 10)).length := by
      rw [padNum_length, padNum_length]
    obtain ⟨hpre, hlast⟩ := List.append_inj heq hlen
    have hq : n₁ / 10 = n₂ / 10 := by
      refine ih (n₁ / 10) (n₂ / 10) ?_ ?_ hpre
      · rw [Nat.div_lt_iff_lt_mul (by omega)]
        calc n₁ < 10 ^ (w + 1) := h1
        _ = 10 ^ w * 10 := by ring
      · rw [Nat.div_lt_iff_lt_mul (by omega)]
        calc n₂ < 10 ^ (w + 1) := h2
        _ = 10 ^ w * 10 := by ring
    have hr : n₁ % 10 = n₂ % 10 := by
      have := List.cons.injEq (Nat.digitChar (n₁ % 10)) [] (Nat.digitChar (n₂ % 10)) []
      rw [this] at hlast
      exact digitChar_inj _ (Nat.mod_lt _ (by omega)) _ (Nat.mod_lt _ (by omega)) hlast.1
    omega

theorem formatTimestamp_length (t : Timestamp) : (formatTimestamp t).length = 22 := by
  simp [formatTimestamp, padNum_length]

theorem formatTimestamp_inj (t₁ t₂ : Timestamp)
    (hv₁ : t₁.valid) (hv₂ : t₂.valid)
    (heq : formatTimestamp t₁ = formatTimestamp t₂) : t₁ = t₂ := by
  obtain ⟨y1, mo1, d1, hh1, mi1, s1, u1⟩ := t₁
  obtain ⟨y2, mo2, d2, hh2, mi2, s2, u2⟩ := t₂
  simp only [Timestamp.valid] at hv₁ hv₂
  obtain ⟨hy₁, hmo₁, hd₁, hh₁, hmi₁, hs₁, hu₁⟩ := hv₁
  obtain ⟨hy₂, hmo₂, hd₂, hh₂, hmi₂, hs₂, hu₂⟩ := hv₂
  unfold formatTimestamp at heq
  dsimp only at heq
  simp only [List.append_assoc, List.cons_append, List.nil_append] at heq
  obtain ⟨e1, heq⟩ := List.append_inj heq (by rw [padNum_length, padNum_length])
  obtain ⟨e2, heq⟩ := List.append_inj heq (by rw [padNum_length, padNum_length])
  obtain ⟨e3, heq⟩ := List.append_inj heq (by rw [padNum_length, padNum_length])
  have heq := ((List.cons.injEq _ _ _ _).mp heq).2
  obtain ⟨e4, heq⟩ := List.append_inj heq (by rw [padNum_length, padNum_length])
  obtain ⟨e5, heq⟩ := List.append_inj heq (by rw [padNum_length, padNum_length])
  obtain ⟨e6, heq⟩ := List.append_inj heq (by rw [padNum_length, padNum_length])
  have e7 := ((List.cons.injEq _ _ _ _).mp heq).2
  simp only [Timestamp.mk.injEq]
  have h10 : (10 : Nat) ^ 4 = 10000 := by norm_num
  have h20 : (10 : Nat) ^ 2 = 100 := by norm_num
  have h60 : (10 : Nat) ^ 6 = 1000000 := by norm_num
  refine ⟨?_, ?_, ?_, ?_, ?_, ?_, ?_⟩
  · exact padNum_inj 4 _ _ (by rw [h10]; omega) (by rw [h10]; omega) e1
  · exact padNum_inj 2 _ _ (by rw [h20]; omega) (by rw [h20]; omega) e2
  · exact padNum_inj 2 _ _ (by rw [h20]; omega) (by rw [h20]; omega) e3
  · exact padNum_inj 2 _ _ (by rw [h20]; omega) (by rw [h20]; omega) e4
  · exact padNum_inj 2 _ _ (by rw [h20]; omega) (by rw [h20]; omega) e5
  · exact padNum_inj 2 _ _ (by rw [h20]; omega) (by rw [h20]; omega) e6
  · exact padNum_inj 6 _ _ (by rw [h60]; omega) (by rw [h60]; omega) e7

theorem digitsRun_exact (a : Str) (ha : ∀ c ∈ a, c.isDigit = true) :
    ∀ rest, digitsRun a.length (a ++ rest) = some rest := by
  induction a with
  | nil => intro rest; rfl
  | cons c cs ih =>
    intro rest
    have hc : c.isDigit = true := ha c (by simp)
    show digitsRun (cs.length + 1) (c :: (cs ++ rest)) = some rest
    rw [digitsRun, if_pos hc]
    exact ih (fun d hd => ha d (by simp [hd])) rest

theorem digitsRun_exact_n (n : Nat) (a rest : Str)
    (ha : ∀ c ∈ a, c.isDigit = true) (hn : a.length = n) :
    digitsRun n (a ++ rest) = some rest := by
  subst hn
  exact digitsRun_exact a ha rest

/-! ## Claim C1: the stability prober -/

/-- C1, counterexample to the claim as stated.  With
`required_stable_checks = 2` and a file whose size and mtime never
change, the claim predicts `(true, false)` only after 2 consecutive
matching samples, i.e. after 3 stat calls; the prober instead returns
`(true, false)` after its 2nd stat call — the first sample seeds the
counter at 1 and already counts toward the threshold. -/
theorem claim_C1_counterexample :
    isStable (fun _ => some (0, 0)) ⟨1, 2, 10⟩ = some ((true, false), 2) ∧
      isStable (fun _ => some (0, 0)) ⟨1, 2, 10⟩ ≠ some ((true, false), 3) := by
  constructor
  · decide
  · decide

/-- C1 (amended): for a policy with `confirmation_interval > 0` and
`required_stable_checks ≥ 1`, and a file present at every sample up to
the timeout horizon `K = max_wait / confirmation_interval`: the prober
returns `(true, false)` after the first sample `k ≥ 1` that matches its
predecessor and brings the counter to `required_stable_checks` — the
counter is seeded at 1 by the first sample and reset to 1 on every
change, so a constant file is reported stable after
`max 1 (required_stable_checks − 1)` consecutive matching samples, not
`required_stable_checks` of them; if no sample reaches the threshold
before `max_wait` elapses, it returns `(true, true)` after `K + 1`
stat calls. -/
theorem claim_C1_amended (f : Nat → Option (Int × Int)) (g : Nat → Int × Int)
    (cfg : StabilityConfig) (K : Nat)
    (hint : 0 < cfg.confirmationInterval)
    (hreq : 1 ≤ cfg.requiredStableChecks)
    (hK : K = cfg.maxWait / cfg.confirmationInterval)
    (hf : ∀ i, i ≤ K → f i = some (g i)) :
    (∀ kstar, 1 ≤ kstar → kstar ≤ K → g kstar = g (kstar - 1) →
        cfg.requiredStableChecks ≤ sGo g kstar →
        (∀ i, 1 ≤ i → i < kstar → g i = g (i - 1) → sGo g i < cfg.requiredStableChecks) →
        isStable f cfg = some ((true, false), kstar + 1))
    ∧ ((∀ i, 1 ≤ i → i ≤ K → g i = g (i - 1) → sGo g i < cfg.requiredStableChecks) →
        isStable f cfg = some ((true, true), K + 1))
    ∧ ((∀ i, i ≤ K → g i = g 0) →
        max 1 (cfg.requiredStableChecks.toNat - 1) * cfg.confirmationInterval ≤ cfg.maxWait →
        isStable f cfg
          = some ((true, false), max 1 (cfg.requiredStableChecks.toNat - 1) + 1)) := by
  have hstep := isStable_first_step f cfg g (hf 0 (Nat.zero_le K)) (K + 1) (by omega)
  have hfirst : ∀ kstar, 1 ≤ kstar → kstar ≤ K → g kstar = g (kstar - 1) →
      cfg.requiredStableChecks ≤ sGo g kstar →
      (∀ i, 1 ≤ i → i < kstar → g i = g (i - 1) → sGo g i < cfg.requiredStableChecks) →
      isStable f cfg = some ((true, false), kstar + 1) := by
    intro kstar hk1 hk2 hm hth hmin
    rw [hstep]
    exact isStableLoop_hit f cfg.confirmationInterval cfg.maxWait cfg.requiredStableChecks
      g K kstar hint hK hf hk2 hm hth hmin (K + 1) 1 (le_refl 1) hk1 (by omega)
  refine ⟨hfirst, ?_, ?_⟩
  · intro hno
    rw [hstep]
    exact isStableLoop_timeout f cfg.confirmationInterval cfg.maxWait cfg.requiredStableChecks
      g K hint hK hf hno (K + 1) 1 (le_refl 1) (by omega) (by omega)
  · intro hconst hfit
    set m := max 1 (cfg.requiredStableChecks.toNat - 1) with hm
    have hm1 : 1 ≤ m := le_max_left 1 _
    have hmhi : cfg.requiredStableChecks.toNat - 1 ≤ m := le_max_right 1 _
    have hmcases : m = 1 ∨ m = cfg.requiredStableChecks.toNat - 1 := by
      rcases le_total 1 (cfg.requiredStableChecks.toNat - 1) with h | h
      · right
        rw [hm]
        exact max_eq_right h
      · left
        rw [hm]
        exact max_eq_left h
    have hmK : m ≤ K := by
      rw [hK]
      exact (Nat.le_div_iff_mul_le hint).mpr hfit
    have hmatch : g m = g (m - 1) := by
      rw [hconst m hmK, hconst (m - 1) (by omega)]
    have hsm : sGo g m = (m : Int) + 1 :=
      sGo_const g m (fun i hi => hconst i (le_trans hi hmK))
    have hthr : cfg.requiredStableChecks ≤ sGo g m := by
      rw [hsm]
      omega
    have hmin : ∀ i, 1 ≤ i → i < m → g i = g (i - 1) →
        sGo g i < cfg.requiredStableChecks := by
      intro i hi1 hi2 _
      have hsi : sGo g i = (i : Int) + 1 :=
        sGo_const g i (fun j hj => hconst j (le_trans hj (le_trans (le_of_lt hi2) hmK)))
      rw [hsi]
      rcases hmcases with h | h <;> omega
    exact hfirst m hm1 hmK hmatch hthr hmin

/-- C1 amended-claim witness: a constant file probed with interval 1,
required checks 3, max wait 10 is reported stable after 3 stat calls
(the seed sample plus 2 matches). -/
theorem claim_C1_witness :
    isStable (fun _ => some (3, 5)) ⟨1, 3, 10⟩ = some ((true, false), 3) :=
  (claim_C1_amended (fun _ => some (3, 5)) (fun _ => (3, 5)) ⟨1, 3, 10⟩ 10
      (by decide) (by decide) (by decide) (fun _ _ => rfl)).2.2
    (fun _ _ => rfl) (by decide)

/-! ## Claim C2: the worker deletes the source only under all four conditions -/

/-- C2: if the per-job worker body deletes the source file, then the
upload succeeded, the job was not flagged processed-due-to-timeout, the
shadow copy succeeded (trivially when disabled), and the final stat
returned exactly the pre-shadow size and mtime; in every other
combination the source file is left in place. -/
theorem claim_C2 (job : UploadJob) (st : WorkerStep)
    (h : workerProcessJob job st = true) :
    st.uploadOk = true ∧ job.processedDueToTimeout = false ∧ st.shadowOk = true ∧
      ∃ sz mt, st.statBefore = some (sz, mt) ∧ st.statAfter = some (sz, mt) := by
  obtain ⟨si, up, sb, sh, sa, rm⟩ := st
  obtain ⟨path, timeout⟩ := job
  dsimp [workerProcessJob] at h ⊢
  cases si with
  | none => exact absurd h (by simp)
  | some s0 =>
    dsimp only at h
    cases up with
    | false => simp at h
    | true =>
      cases timeout with
      | true => simp at h
      | false =>
        simp only [Bool.not_true, if_neg Bool.false_ne_true, if_neg (by simp : ¬ False)] at h
        cases sb with
        | none => simp at h
        | some pre =>
          obtain ⟨psz, pmt⟩ := pre
          dsimp only at h
          cases sh with
          | false => simp at h
          | true =>
            simp only [Bool.not_true, if_neg Bool.false_ne_true] at h
            cases sa with
            | none => simp at h
            | some post =>
              obtain ⟨qsz, qmt⟩ := post
              dsimp only at h
              by_cases hne : qsz ≠ psz ∨ qmt ≠ pmt
              · rw [if_pos hne] at h
                exact absurd h (by simp)
              · push_neg at hne
                exact ⟨rfl, rfl, rfl, psz, pmt, rfl, by rw [hne.1, hne.2]⟩

/-- C2 witness: a job whose upload succeeded, with no timeout flag,
successful shadow copy and identical pre/post stats, satisfies all
four conditions of the deletion invariant. -/
theorem claim_C2_witness :
    (⟨some 5, true, some (5, 7), true, some (5, 7), true⟩ : WorkerStep).uploadOk = true ∧
      (⟨"f".toList, false⟩ : UploadJob).processedDueToTimeout = false ∧
      (⟨some 5, true, some (5, 7), true, some (5, 7), true⟩ : WorkerStep).shadowOk = true ∧
      ∃ sz mt,
        (⟨some 5, true, some (5, 7), true, some (5, 7), true⟩ : WorkerStep).statBefore
            = some (sz, mt) ∧
          (⟨some 5, true, some (5, 7), true, some (5, 7), true⟩ : WorkerStep).statAfter
            = some (sz, mt) :=
  claim_C2 ⟨"f".toList, false⟩ ⟨some 5, true, some (5, 7), true, some (5, 7), true⟩ (by decide)

/-! ## Claim C6: hidden names and legacy suffixes are always ignored -/

/-- C6: whenever the basename of a path starts with a dot or ends with
one of the legacy suffixes, `ShouldIgnore` returns true no matter what
patterns are configured. -/
theorem claim_C6 (path : Str) (patterns : List Str)
    (h : (goBase path).head? = some '.' ∨
      ∃ suffix ∈ IgnoredSuffixes, suffix <:+ goBase path) :
    ShouldIgnore path patterns = true := by
  unfold ShouldIgnore
  by_cases hh : (goBase path).head? = some '.'
  · rw [if_pos hh]
  · rw [if_neg hh]
    rcases h with h | ⟨suffix, hmem, hsuf⟩
    · exact absurd h hh
    · have hdot : ∀ s ∈ IgnoredSuffixes, s.head? = some '.' := by decide
      obtain ⟨pre, hpre⟩ := hsuf
      have hpne : pre ≠ [] := by
        intro he
        subst he
        simp only [List.nil_append] at hpre
        exact hh (hpre ▸ hdot suffix hmem)
      have hplen : 1 ≤ pre.length := List.length_pos.mpr hpne
      have hlen : (goBase path).length = pre.length + suffix.length := by
        rw [← hpre]
        simp
      have hlegacy : (IgnoredSuffixes.any fun suffix =>
          suffix.length < (goBase path).length &&
            (goBase path).drop ((goBase path).length - suffix.length) == suffix) = true := by
        rw [List.any_eq_true]
        refine ⟨suffix, hmem, ?_⟩
        simp only [Bool.and_eq_true, decide_eq_true_eq, beq_iff_eq]
        refine ⟨by omega, ?_⟩
        rw [← hpre]
        have hidx : (pre ++ suffix).length - suffix.length = pre.length := by
          simp
        rw [hidx, List.drop_left]
      by_cases hp : (patterns.any fun pattern =>
          patternMatches pattern path (goBase path)) = true
      · rw [if_pos hp]
      · rw [if_neg hp]
        exact hlegacy

/-- C6 witness: a file ending in `.partial` is ignored even under an
unrelated configured pattern. -/
theorem claim_C6_witness :
    ShouldIgnore ("/tmp/file.partial".toList) ["*.log".toList] = true :=
  claim_C6 ("/tmp/file.partial".toList) ["*.log".toList]
    (Or.inr ⟨".partial".toList, by decide, by decide⟩)

/-! ## Claim C7: the bounded upload queue -/

/-- C7: the dispatcher queue, capacity 100, never exceeds its capacity;
on a started (non-cancelled) dispatcher, `Enqueue` drops the job and
leaves the queue unchanged when the queue is full, and appends the job
at the tail (FIFO) when there is room. -/
theorem claim_C7 (queue : List UploadJob) (job : UploadJob) (pickDone : Bool) :
    (queue.length ≤ queueCapacity →
      ((Enqueue false pickDone queue job).2).length ≤ queueCapacity)
    ∧ (queue.length = queueCapacity →
      Enqueue false pickDone queue job = (.droppedFull, queue))
    ∧ (queue.length < queueCapacity →
      Enqueue false pickDone queue job = (.sent, queue ++ [job])) := by
  have hnc : ¬ (queue.length < queueCapacity ∧ false = true) := fun hc => by
    exact Bool.noConfusion hc.2
  refine ⟨?_, ?_, ?_⟩
  · intro hle
    unfold Enqueue
    rw [if_neg hnc]
    by_cases hr : queue.length < queueCapacity
    · rw [if_pos hr]
      simp only [List.length_append, List.length_singleton]
      omega
    · rw [if_neg hr, if_neg Bool.false_ne_true]
      exact hle
  · intro hfull
    unfold Enqueue
    rw [if_neg hnc, if_neg (by omega), if_neg Bool.false_ne_true]
  · intro hroom
    unfold Enqueue
    rw [if_neg hnc, if_pos hroom]

/-- C7 witness: enqueueing onto an empty queue of a started dispatcher
appends the job. -/
theorem claim_C7_witness :
    Enqueue false false [] ⟨"a".toList, false⟩
      = (.sent, [⟨"a".toList, false⟩]) :=
  (claim_C7 [] ⟨"a".toList, false⟩ false).2.2 (by decide)

/-! ## Claim C9: the filename sanitizer never rewrites accepted input -/

/-- C9: whenever `sanitizeFilename` returns without error, the returned
string is exactly the submitted input. -/
theorem claim_C9 (name result : Str) (h : sanitizeFilename name = .ok result) :
    result = name :=
  (sanitizeFilename_ok name result h).1

/-- C9 witness: a concrete accepted filename is returned unchanged. -/
theorem claim_C9_witness :
    ∃ r, sanitizeFilename ("report.pdf".toList) = .ok r ∧ r = "report.pdf".toList :=
  ⟨"report.pdf".toList, rfl, claim_C9 _ _ rfl⟩

/-! ## Claim C10: the hidden-file rule inspects only the basename -/

/-- C10: for any path whose basename does not start with a dot, does
not end in a legacy suffix, and matches no configured pattern,
`ShouldIgnore` returns false — in particular paths inside hidden
directories (a dotted ancestor component) are not ignored, so such
files stay eligible for the reconciliation scan and event paths, both
of which filter solely through `ShouldIgnore`. -/
theorem claim_C10 (path : Str) (patterns : List Str)
    (hhid : (goBase path).head? ≠ some '.')
    (hsuf : ∀ suffix ∈ IgnoredSuffixes, ¬ suffix <:+ goBase path)
    (hpat : ∀ pattern ∈ patterns, patternMatches pattern path (goBase path) = false) :
    ShouldIgnore path patterns = false := by
  unfold ShouldIgnore
  rw [if_neg hhid]
  have hp : (patterns.any fun pattern => patternMatches pattern path (goBase path)) = false := by
    rw [List.any_eq_false]
    intro pattern hmem
    rw [hpat pattern hmem]
    exact Bool.false_ne_true
  rw [hp, if_neg Bool.false_ne_true]
  rw [List.any_eq_false]
  intro suffix hmem
  simp only [Bool.and_eq_true, decide_eq_true_eq, beq_iff_eq, not_and]
  intro _ hdrop
  refine absurd ?_ (hsuf suffix hmem)
  refine ⟨(goBase path).take ((goBase path).length - suffix.length), ?_⟩
  conv_rhs => rw [← List.take_append_drop ((goBase path).length - suffix.length) (goBase path)]
  rw [hdrop]

/-- C10 witness: a regular file inside a hidden directory is not
ignored. -/
theorem claim_C10_witness :
    ShouldIgnore (".hidden/file.txt".toList) ["*.log".toList] = false :=
  claim_C10 (".hidden/file.txt".toList) ["*.log".toList]
    (by decide) (by decide) (by decide)

/-! ## Claim C3: path containment of validated upload targets -/

/-- C3: for a subdirectory accepted by `sanitizeSubdirectoryPath` and a
basename accepted by `sanitizeFilename`, any path returned by
`validateSubdirectoryPath` for their join is a proper descendant of the
absolute ingest root — it begins with `abs(ingest_root)` followed by
the separator; and for an arbitrary relative target, a returned path is
always either the ingest root itself or such a descendant (everything
else is rejected with an error). -/
theorem claim_C3 (cwd base subdir name ss sn : Str)
    (hcwd : cwd.head? = some '/')
    (hsub : sanitizeSubdirectoryPath subdir = .ok ss)
    (hname : sanitizeFilename name = .ok sn) :
    (∀ p, validateSubdirectoryPath cwd base (goJoin ss sn) = .ok p →
        (goAbs cwd base ++ ['/']).isPrefixOf p = true)
    ∧ (∀ rel p, validateSubdirectoryPath cwd base rel = .ok p →
        (goAbs cwd base ++ ['/']).isPrefixOf p = true ∨ p = goAbs cwd base) := by
  obtain ⟨hss, hhead, hparts⟩ := sanitizeSubdirectoryPath_ok subdir ss hsub
  obtain ⟨hsneq, hreal, hnosep⟩ := sanitizeFilename_ok name sn hname
  subst hsneq
  obtain ⟨hjoin, hsplit, hheadapp⟩ :=
    goJoin_sanitized ss sn hss hhead hparts hreal hnosep
  constructor
  · intro p hp
    rw [hjoin] at hp
    refine validate_sanitized_descends cwd base (ss ++ '/' :: sn) hcwd
      (by simp) (by rw [hheadapp]; exact hhead) ?_ p hp
    intro c hc
    rw [hsplit] at hc
    rcases List.mem_append.mp hc with h | h
    · exact hparts c h
    · rw [List.mem_singleton.mp h]
      exact ⟨hreal, hnosep⟩
  · exact fun rel => validate_ok_means_inside cwd base rel

/-- C3 witness: the sanitized pair `("2025/01", "a.txt")` under the
ingest root `/data/watch` resolves to a proper descendant. -/
theorem claim_C3_witness :
    (goAbs ("/w".toList) ("/data/watch".toList) ++ ['/']).isPrefixOf
        ("/data/watch/2025/01/a.txt".toList) = true :=
  (claim_C3 ("/w".toList) ("/data/watch".toList) ("2025/01".toList) ("a.txt".toList)
      ("2025/01".toList) ("a.txt".toList) rfl rfl rfl).1
    ("/data/watch/2025/01/a.txt".toList) rfl

/-! ## Claim C8: shadow archive names -/

/-- C8 counterexample: two distinct `Store` calls that observe the same
microsecond timestamp — the serializing lock orders the calls but does
nothing to advance `time.Now()` between them — produce identical
archive filenames even for different source paths, so the later copy
overwrites the earlier one and the claimed unconditional uniqueness
fails. -/
theorem claim_C8_counterexample :
    shadowName ⟨2025, 1, 1, 12, 0, 0, 0⟩ ("/a/x.txt".toList)
      = shadowName ⟨2025, 1, 1, 12, 0, 0, 0⟩ ("/b/x.txt".toList) := by decide

/-- C8 amended: every archive filename has the form
`YYYYMMDD-HHMMSS.uuuuuu-<basename(source)>` (a 22-character
microsecond-precision timestamp, a dash, the basename), and two calls
observing distinct microsecond timestamps produce distinct filenames,
even for different source paths.  Distinctness is conditional on the
observed timestamps differing: the lock serializes the calls but does
not guarantee the clock advances between them. -/
theorem claim_C8_amended (t₁ t₂ : Timestamp) (src₁ src₂ : Str)
    (hv₁ : t₁.valid) (hv₂ : t₂.valid) :
    shadowName t₁ src₁ = formatTimestamp t₁ ++ '-' :: goBase src₁
    ∧ isTimestampShape (formatTimestamp t₁) = true
    ∧ (t₁ ≠ t₂ → shadowName t₁ src₁ ≠ shadowName t₂ src₂) := by
  obtain ⟨hy₁, hmo₁, hd₁, hh₁, hmi₁, hs₁, hu₁⟩ := hv₁
  refine ⟨by simp [shadowName], ?_, ?_⟩
  · have hfmt : formatTimestamp t₁
        = (padNum 4 t₁.year ++ (padNum 2 t₁.month ++ padNum 2 t₁.day)) ++
            '-' :: ((padNum 2 t₁.hour ++ (padNum 2 t₁.minute ++ padNum 2 t₁.second)) ++
              '.' :: (padNum 6 t₁.micro ++ [])) := by
      simp [formatTimestamp]
    have hdig8 : ∀ c ∈ padNum 4 t₁.year ++ (padNum 2 t₁.month ++ padNum 2 t₁.day),
        c.isDigit = true := by
      intro c hc
      rcases List.mem_append.mp hc with h | h
      · exact padNum_digits 4 _ c h
      · rcases List.mem_append.mp h with h | h
        · exact padNum_digits 2 _ c h
        · exact padNum_digits 2 _ c h
    have hdig6 : ∀ c ∈ padNum 2 t₁.hour ++ (padNum 2 t₁.minute ++ padNum 2 t₁.second),
        c.isDigit = true := by
      intro c hc
      rcases List.mem_append.mp hc with h | h
      · exact padNum_digits 2 _ c h
      · rcases List.mem_append.mp h with h | h
        · exact padNum_digits 2 _ c h
        · exact padNum_digits 2 _ c h
    have hlen8 : (padNum 4 t₁.year ++ (padNum 2 t₁.month ++ padNum 2 t₁.day)).length = 8 := by
      simp [padNum_length]
    have hlen6 : (padNum 2 t₁.hour ++ (padNum 2 t₁.minute ++ padNum 2 t₁.second)).length = 6 := by
      simp [padNum_length]
    have hlen6b : (padNum 6 t₁.micro).length = 6 := padNum_length 6 _
    unfold isTimestampShape
    rw [hfmt, digitsRun_exact_n 8 _ _ hdig8 hlen8]
    dsimp only
    rw [if_pos rfl, digitsRun_exact_n 6 _ _ hdig6 hlen6]
    dsimp only
    rw [if_pos rfl, digitsRun_exact_n 6 _ _ (padNum_digits 6 _) hlen6b]
  · intro hne heq
    unfold shadowName at heq
    simp only [List.append_assoc, List.cons_append, List.nil_append] at heq
    obtain ⟨hfmt, -⟩ := List.append_inj heq
      (by rw [formatTimestamp_length, formatTimestamp_length])
    exact hne (formatTimestamp_inj t₁ t₂ ⟨hy₁, hmo₁, hd₁, hh₁, hmi₁, hs₁, hu₁⟩ hv₂ hfmt)

/-- C8 witness: two store operations one microsecond apart on the same
source file produce distinct archive names. -/
theorem claim_C8_witness :
    shadowName ⟨2025, 1, 1, 12, 0, 0, 0⟩ ("/a/x.txt".toList)
      ≠ shadowName ⟨2025, 1, 1, 12, 0, 0, 1⟩ ("/a/x.txt".toList) :=
  (claim_C8_amended ⟨2025, 1, 1, 12, 0, 0, 0⟩ ⟨2025, 1, 1, 12, 0, 0, 1⟩
      ("/a/x.txt".toList) ("/a/x.txt".toList) (by decide) (by decide)).2.2
    (by decide)

/-! ## Claim C4: retry policy -/

theorem executeWithRetry_reach1 (respond : Nat → DoResult) (gate : Nat → Bool)
    (h0 : retryableStep (respond 0) = true) :
    executeWithRetry respond gate = retryLoop respond gate 1 3 1 [] := by
  show retryLoop respond gate 0 (3 + 1) 1 [] = _
  exact retryLoop_retry0 respond gate 3 1 [] h0

theorem executeWithRetry_reach2 (respond : Nat → DoResult) (gate : Nat → Bool)
    (h0 : retryableStep (respond 0) = true) (h1 : retryableStep (respond 1) = true)
    (hg1 : gate 1 = false) :
    executeWithRetry respond gate = retryLoop respond gate 2 2 2 [1] := by
  rw [executeWithRetry_reach1 respond gate h0]
  show retryLoop respond gate 1 (2 + 1) 1 [] = _
  exact (retryLoop_retryS respond gate 1 2 1 [] (by omega) hg1 h1).trans rfl

theorem executeWithRetry_reach3 (respond : Nat → DoResult) (gate : Nat → Bool)
    (h0 : retryableStep (respond 0) = true) (h1 : retryableStep (respond 1) = true)
    (h2 : retryableStep (respond 2) = true)
    (hg1 : gate 1 = false) (hg2 : gate 2 = false) :
    executeWithRetry respond gate = retryLoop respond gate 3 1 4 [1, 2] := by
  rw [executeWithRetry_reach2 respond gate h0 h1 hg1]
  show retryLoop respond gate 2 (1 + 1) 2 [1] = _
  exact (retryLoop_retryS respond gate 2 1 2 [1] (by omega) hg2 h2).trans rfl

theorem executeWithRetry_terminal (respond : Nat → DoResult) (gate : Nat → Bool)
    (k : Nat) (hk : k ≤ 3)
    (hret : ∀ j, j < k → retryableStep (respond j) = true)
    (hgate : ∀ j, 1 ≤ j → j ≤ k → gate j = false) :
    (∀ status, respond k = .resp status → 200 ≤ status → status < 300 →
        executeWithRetry respond gate = (.success k, [1, 2, 4].take k))
    ∧ (∀ status, respond k = .resp status → ¬ (200 ≤ status ∧ status < 300) →
        400 ≤ status → status < 500 →
        executeWithRetry respond gate = (.clientError k status, [1, 2, 4].take k))
    ∧ (respond k = .netErr true →
        executeWithRetry respond gate = (.cancelled k, [1, 2, 4].take k)) := by
  interval_cases k
  · have hg0 : ¬ ((0:Nat) > 0 ∧ gate 0 = true) := fun hc => absurd hc.1 (lt_irrefl 0)
    have h0 : executeWithRetry respond gate = retryLoop respond gate 0 (3 + 1) 1 [] := rfl
    refine ⟨?_, ?_, ?_⟩
    · intro status hresp ha hb
      exact h0.trans
        (((retryLoop_terminal respond gate 0 3 1 [] hg0).1 status hresp ha hb).trans (by simp))
    · intro status hresp hn ha hb
      exact h0.trans
        (((retryLoop_terminal respond gate 0 3 1 [] hg0).2.1 status hresp hn ha hb).trans (by simp))
    · intro hresp
      exact h0.trans
        (((retryLoop_terminal respond gate 0 3 1 [] hg0).2.2 hresp).trans (by simp))
  · have hg1 : ¬ ((1:Nat) > 0 ∧ gate 1 = true) := fun hc => by
      rw [hgate 1 (by omega) (by omega)] at hc
      exact Bool.noConfusion hc.2
    have h1 := executeWithRetry_reach1 respond gate (hret 0 (by omega))
    refine ⟨?_, ?_, ?_⟩
    · intro status hresp ha hb
      exact h1.trans
        (((retryLoop_terminal respond gate 1 2 1 [] hg1).1 status hresp ha hb).trans (by simp))
    · intro status hresp hn ha hb
      exact h1.trans
        (((retryLoop_terminal respond gate 1 2 1 [] hg1).2.1 status hresp hn ha hb).trans (by simp))
    · intro hresp
      exact h1.trans
        (((retryLoop_terminal respond gate 1 2 1 [] hg1).2.2 hresp).trans (by simp))
  · have hg2 : ¬ ((2:Nat) > 0 ∧ gate 2 = true) := fun hc => by
      rw [hgate 2 (by omega) (by omega)] at hc
      exact Bool.noConfusion hc.2
    have h2 := executeWithRetry_reach2 respond gate (hret 0 (by omega)) (hret 1 (by omega))
      (hgate 1 (by omega) (by omega))
    refine ⟨?_, ?_, ?_⟩
    · intro status hresp ha hb
      exact h2.trans
        (((retryLoop_terminal respond gate 2 1 2 [1] hg2).1 status hresp ha hb).trans (by simp))
    · intro status hresp hn ha hb
      exact h2.trans
        (((retryLoop_terminal respond gate 2 1 2 [1] hg2).2.1 status hresp hn ha hb).trans (by simp))
    · intro hresp
      exact h2.trans
        (((retryLoop_terminal respond gate 2 1 2 [1] hg2).2.2 hresp).trans (by simp))
  · have hg3 : ¬ ((3:Nat) > 0 ∧ gate 3 = true) := fun hc => by
      rw [hgate 3 (by omega) (by omega)] at hc
      exact Bool.noConfusion hc.2
    have h3 := executeWithRetry_reach3 respond gate (hret 0 (by omega)) (hret 1 (by omega))
      (hret 2 (by omega)) (hgate 1 (by omega) (by omega)) (hgate 2 (by omega) (by omega))
    refine ⟨?_, ?_, ?_⟩
    · intro status hresp ha hb
      exact h3.trans
        (((retryLoop_terminal respond gate 3 0 4 [1, 2] hg3).1 status hresp ha hb).trans (by simp))
    · intro status hresp hn ha hb
      exact h3.trans
        (((retryLoop_terminal respond gate 3 0 4 [1, 2] hg3).2.1 status hresp hn ha hb).trans (by simp))
    · intro hresp
      exact h3.trans
        (((retryLoop_terminal respond gate 3 0 4 [1, 2] hg3).2.2 hresp).trans (by simp))

/-- C4: the retry loop makes at most 4 attempts with sleeps a prefix of
`[1, 2, 4]` seconds; a 2xx response at attempt `k` (reached because all
earlier attempts were retryable and no backoff gate fired) ends with
success after sleeps `1, …, 2^(k-1)`; a 4xx response ends immediately
with a client error; four retryable attempts exhaust the budget after
sleeping `1, 2, 4`; a context-cancellation at the backoff gate before
attempt `k`, or a transport error with the context already cancelled,
ends with a cancellation error and no further attempt. -/
theorem claim_C4 (respond : Nat → DoResult) (gate : Nat → Bool) :
    (executeWithRetry respond gate).2 <+: [1, 2, 4]
    ∧ (∀ k status, k ≤ 3 →
        (∀ j, j < k → retryableStep (respond j) = true) →
        (∀ j, 1 ≤ j → j ≤ k → gate j = false) →
        respond k = .resp status → 200 ≤ status → status < 300 →
        executeWithRetry respond gate = (.success k, [1, 2, 4].take k))
    ∧ (∀ k status, k ≤ 3 →
        (∀ j, j < k → retryableStep (respond j) = true) →
        (∀ j, 1 ≤ j → j ≤ k → gate j = false) →
        respond k = .resp status → ¬ (200 ≤ status ∧ status < 300) →
        400 ≤ status → status < 500 →
        executeWithRetry respond gate = (.clientError k status, [1, 2, 4].take k))
    ∧ ((∀ j, j ≤ 3 → retryableStep (respond j) = true) →
        (∀ j, 1 ≤ j → j ≤ 3 → gate j = false) →
        executeWithRetry respond gate = (.exhausted, [1, 2, 4]))
    ∧ (∀ k, 1 ≤ k → k ≤ 3 →
        (∀ j, j < k → retryableStep (respond j) = true) →
        (∀ j, 1 ≤ j → j < k → gate j = false) →
        gate k = true →
        executeWithRetry respond gate = (.cancelled k, [1, 2, 4].take (k - 1)))
    ∧ (∀ k, k ≤ 3 →
        (∀ j, j < k → retryableStep (respond j) = true) →
        (∀ j, 1 ≤ j → j ≤ k → gate j = false) →
        respond k = .netErr true →
        executeWithRetry respond gate = (.cancelled k, [1, 2, 4].take k)) := by
  have hg0 : ¬ ((0:Nat) > 0 ∧ gate 0 = true) := fun hc => absurd hc.1 (lt_irrefl 0)
  refine ⟨?_, ?_, ?_, ?_, ?_, ?_⟩
  · have hb : backoffs 1 3 = [1, 2, 4] := rfl
    have hnext : (retryLoop respond gate 1 3 1 []).2 <+: [1, 2, 4] := by
      obtain ⟨t, ht, hpre⟩ := retryLoop_sleeps respond gate 3 1 1 [] (by omega)
      rw [ht, hb] at *
      simpa using hpre
    show (retryLoop respond gate 0 (3 + 1) 1 []).2 <+: [1, 2, 4]
    rw [retryLoop_body respond gate 0 3 1 [] hg0]
    cases hresp : respond 0 with
    | netErr ctxErr =>
      dsimp only
      cases ctxErr with
      | true => simp
      | false =>
        rw [if_neg Bool.false_ne_true]
        simpa using hnext
    | resp status =>
      dsimp only
      by_cases ha : 200 ≤ status ∧ status < 300
      · rw [if_pos ha]
        simp
      · rw [if_neg ha]
        by_cases hc : 400 ≤ status ∧ status < 500
        · rw [if_pos hc]
          simp
        · rw [if_neg hc]
          simpa using hnext
  · intro k status hk hret hgate hresp ha hb
    exact (executeWithRetry_terminal respond gate k hk hret hgate).1 status hresp ha hb
  · intro k status hk hret hgate hresp hn ha hb
    exact (executeWithRetry_terminal respond gate k hk hret hgate).2.1 status hresp hn ha hb
  · intro hret hgate
    have h3 := executeWithRetry_reach3 respond gate (hret 0 (by omega)) (hret 1 (by omega))
      (hret 2 (by omega)) (hgate 1 (by omega) (by omega)) (hgate 2 (by omega) (by omega))
    refine h3.trans ?_
    show retryLoop respond gate 3 (0 + 1) 4 [1, 2] = _
    exact (retryLoop_retryS respond gate 3 0 4 [1, 2] (by omega)
      (hgate 3 (by omega) (by omega)) (hret 3 (by omega))).trans rfl
  · intro k hk1 hk3 hret hgate hgk
    interval_cases k
    · exact (executeWithRetry_reach1 respond gate (hret 0 (by omega))).trans
        (retryLoop_gateStop respond gate 1 2 1 [] (by omega) hgk)
    · exact (executeWithRetry_reach2 respond gate (hret 0 (by omega)) (hret 1 (by omega))
          (hgate 1 (by omega) (by omega))).trans
        (retryLoop_gateStop respond gate 2 1 2 [1] (by omega) hgk)
    · exact (executeWithRetry_reach3 respond gate (hret 0 (by omega)) (hret 1 (by omega))
          (hret 2 (by omega)) (hgate 1 (by omega) (by omega))
          (hgate 2 (by omega) (by omega))).trans
        (retryLoop_gateStop respond gate 3 0 4 [1, 2] (by omega) hgk)
  · intro k hk hret hgate hresp
    exact (executeWithRetry_terminal respond gate k hk hret hgate).2.2 hresp

/-- C4 witness: a 500 response, then a transport failure, then a 200:
the job succeeds at the third attempt after sleeping 1 s and 2 s. -/
theorem claim_C4_witness :
    executeWithRetry
        (fun k => if k = 0 then .resp 500 else if k = 1 then .netErr false else .resp 200)
        (fun _ => false)
      = (.success 2, [1, 2]) :=
  (claim_C4 (fun k => if k = 0 then .resp 500 else if k = 1 then .netErr false else .resp 200)
      (fun _ => false)).2.1 2 200 (by omega) (by decide) (fun j h1 h2 => rfl) rfl
    (by omega) (by omega)

/-! ## Claim C5: scratch-file cleanup on upload failure -/

/-- C5 counterexample: a well-formed upload on which `io.Copy` into the
scratch file fails.  The handler responds 500, but the `.partial`
scratch file is left behind in the temp directory: `streamToFile` only
closes the handle on error, and `handleUpload` removes the scratch file
only when the final rename fails. -/
theorem claim_C5_counterexample :
    handleUpload ("/w".toList)
        ⟨true, "test".toList, true, "/data/watch".toList, true, true, "a.txt".toList⟩
        ⟨true, .copyFail, true⟩ ⟨false, false⟩
      = (500, ⟨true, false⟩) := by decide

/-- C5 amended: for a request that passes all validation with `mkdir`
succeeding, every later failure yields status 500, but the scratch file
is removed only on rename failure: a copy or fsync failure leaves the
scratch file in the temp directory, a create failure never wrote it,
and a successful write-plus-rename yields 200 with the target in
place. -/
theorem claim_C5_amended (cwd : Str) (req : UploadRequest) (fsio : UploadFsOutcomes)
    (st : ScratchState) (sf targetRelPath q : Str)
    (hpost : req.isPost = true) (hpath : req.uploadPath ≠ [])
    (hdir : req.dirKnown = true) (hparse : req.parseFormOk = true)
    (hform : req.formFileOk = true) (hfn : req.filename ≠ [])
    (hsan : sanitizeFilename req.filename = .ok sf)
    (hrel : targetRelOf (splitN2 '/' req.uploadPath).2 sf = .ok targetRelPath)
    (hval : validateSubdirectoryPath cwd req.ingestPath targetRelPath = .ok q)
    (hmk : fsio.mkdirOk = true) :
    (fsio.stream = .copyFail ∨ fsio.stream = .syncFail →
        handleUpload cwd req fsio st = (500, { st with tempExists := true }))
    ∧ (fsio.stream = .createFail →
        handleUpload cwd req fsio st = (500, st))
    ∧ (fsio.stream = .writeOk → fsio.renameOk = false →
        handleUpload cwd req fsio st = (500, { st with tempExists := false }))
    ∧ (fsio.stream = .writeOk → fsio.renameOk = true →
        handleUpload cwd req fsio st = (200, { tempExists := false, finalExists := true })) := by
  have hstep : handleUpload cwd req fsio st = handleUploadWrite cwd req fsio st targetRelPath := by
    simp [handleUpload, hpost, hdir, hparse, hform, hpath, hfn, hsan, hrel]
  refine ⟨?_, ?_, ?_, ?_⟩
  · intro hs
    rw [hstep]
    unfold handleUploadWrite
    rw [hval]
    dsimp only
    rw [hmk]
    rcases hs with h | h <;> rw [h] <;> simp [streamToFile]
  · intro h
    rw [hstep]
    unfold handleUploadWrite
    rw [hval]
    dsimp only
    rw [hmk, h]
    simp [streamToFile]
  · intro h hrn
    rw [hstep]
    unfold handleUploadWrite
    rw [hval]
    dsimp only
    rw [hmk, h]
    simp [streamToFile, hrn]
  · intro h hrn
    rw [hstep]
    unfold handleUploadWrite
    rw [hval]
    dsimp only
    rw [hmk, h]
    simp [streamToFile, hrn]

/-- C5 witness: the amended theorem applied to a concrete request whose
fsync fails — 500 with the scratch file left behind. -/
theorem claim_C5_witness :
    handleUpload ("/w".toList)
        ⟨true, "test".toList, true, "/data/watch".toList, true, true, "a.txt".toList⟩
        ⟨true, .syncFail, true⟩ ⟨false, false⟩
      = (500, ⟨true, false⟩) :=
  (claim_C5_amended ("/w".toList)
      ⟨true, "test".toList, true, "/data/watch".toList, true, true, "a.txt".toList⟩
      ⟨true, .syncFail, true⟩ ⟨false, false⟩
      ("a.txt".toList) ("a.txt".toList) ("/data/watch/a.txt".toList)
      rfl (by decide) rfl rfl rfl (by decide) rfl rfl rfl rfl).1
    (Or.inr rfl)

end Xferd
